import Mathlib

/-!
# gogit: repository layout manager

A shallow embedding of `gogit.go` (the `init` command of a small git clone) and the
properties of its repository-layout logic.

Strings are lists of characters.  The Go program talks to three collaborators that are
not part of the repository; each is modelled explicitly:

* `path/filepath` (`Join`, `Clean`) : section *Paths*;
* the operating system (`os.Stat`, `os.MkdirAll`, `os.Create`, `os.Open`, `Readdirnames`)
  : section *Filesystem*, a directory tree without symbolic links, with the refusals of
  the system (permissions, a read-only or full volume) and the limits on names;
* `github.com/go-ini/ini` : section *Configuration store*, an ordered list of sections
  of key/value pairs, with the textual codec (load, save) taken as a parameter and the
  expansion of `%(name)s` references that reading a value makes.

A Go `panic` is an `Except.error`; every operation returns the filesystem it leaves
behind, also when it panics.
-/

namespace Gogit

/-! ## Paths (`path/filepath`, Unix) -/

/-- A Go string. -/
abbrev Str := List Char

/-- The path separator. -/
def sep : Char := '/'

/-- The path element `.`. -/
def dot : Str := ['.']

/-- The path element `..`. -/
def dotdot : Str := ['.', '.']

/-- The elements of a path: the maximal runs between separators (`strings.Split(p, "/")`).
The empty string has the single empty element. -/
def splitSep : Str → List Str
  | [] => [[]]
  | c :: cs =>
    if c = sep then [] :: splitSep cs
    else
      match splitSep cs with
      | [] => [[c]]
      | x :: xs => (c :: x) :: xs

/-- The elements joined with one separator between neighbours (`strings.Join(es, "/")`). -/
def joinSep : List Str → Str
  | [] => []
  | [e] => e
  | e :: es => e ++ sep :: joinSep es

/-- A path is rooted when it begins with the separator. -/
def isRooted : Str → Bool
  | c :: _ => c == sep
  | [] => false

/-- One element processed by `filepath.Clean`.  `stack` holds the elements written so far,
the last one first.  Empty elements and `.` are skipped; `..` removes the element before it
when that is a name, is dropped at the root of a rooted path, and is kept otherwise; a name
is appended. -/
def cleanStep (rooted : Bool) (stack : List Str) (e : Str) : List Str :=
  if e = [] ∨ e = dot then stack
  else if e = dotdot then
    match stack with
    | [] => if rooted then [] else [dotdot]
    | t :: rest => if t = dotdot then (if rooted then stack else dotdot :: stack) else rest
  else e :: stack

/-- The elements of a path processed from left to right, starting from `stack`. -/
def cleanRun (rooted : Bool) (stack : List Str) (es : List Str) : List Str :=
  es.foldl (cleanStep rooted) stack

/-- The text of a cleaned path: the root separator for a rooted path, then the elements;
a relative path without elements is `.`. -/
def cleanOut (rooted : Bool) (stack : List Str) : Str :=
  if rooted then sep :: joinSep stack.reverse
  else if stack = [] then dot
  else joinSep stack.reverse

/-- Model of `filepath.Clean`: the shortest path name equivalent to `p` by purely lexical
processing.  The empty path becomes `.`. -/
def clean (p : Str) : Str :=
  if p = [] then dot
  else cleanOut (isRooted p) (cleanRun (isRooted p) [] (splitSep p))

/-- Model of `filepath.Join`: leading empty elements are ignored, the rest is joined with
separators and cleaned; when every element is empty the result is the empty string. -/
def join (elem : List Str) : Str :=
  match elem.dropWhile (fun e => e == []) with
  | [] => []
  | es => clean (joinSep es)

/-! ## Filesystem (`os`)

The filesystem is a directory tree, without symbolic links.  What the system refuses for
reasons that the tree does not show (permissions, a read-only or full volume) is given by
the field `denied` of the state; names are checked against `NAME_MAX` and `PATH_MAX`, and
a NUL byte in a path name is `EINVAL`. -/

/-- A filesystem object: a regular file with its content, or a directory with its entries
(name and object; the first entry of a name is the one in effect). -/
inductive Node where
  | file (content : Str)
  | dir (children : List (Str × Node))

/-- The error numbers the model distinguishes. -/
inductive Errno where
  | ENOENT
  | ENOTDIR
  | EISDIR
  | EINVAL
  | ENAMETOOLONG
  | EACCES
  deriving DecidableEq, Repr

/-- What the system can refuse at a location: to look up an entry in the directory there
(`search`), to create an entry in the directory or to truncate the file there (`write`),
to list the directory or to read the file there (`read`). -/
inductive Access where
  | search
  | write
  | read
  deriving DecidableEq, Repr

/-- The state of the filesystem: the entries of the root directory, the working directory
of the process as the list of names leading to it from the root, and what the system
refuses at each location (no permission, a read-only or full volume, a quota). -/
structure FS where
  root : List (Str × Node)
  cwd : List Str
  denied : Access → List Str → Bool

/-- The root directory as a node. -/
def FS.rootNode (fs : FS) : Node := .dir fs.root

/-- The longest name of a directory entry, in bytes (`NAME_MAX`). -/
def nameMax : Nat := 255

/-- The length from which a path name is too long, in bytes (`PATH_MAX`, which counts the
NUL at the end). -/
def pathMax : Nat := 4096

/-- The number of bytes of a character in UTF-8. -/
def utf8Len (c : Char) : Nat :=
  if c.toNat < 128 then 1 else if c.toNat < 2048 then 2 else if c.toNat < 65536 then 3 else 4

/-- The number of bytes of a string. -/
def byteLen : Str → Nat
  | [] => 0
  | c :: cs => utf8Len c + byteLen cs

/-- The entry called `name` among the entries of a directory. -/
def findChild (name : Str) : List (Str × Node) → Option Node
  | [] => none
  | (n, m) :: rest => if n = name then some m else findChild name rest

/-- The entries of a directory with `name` bound to `new`: in place when the name is there,
at the end otherwise. -/
def setChild (name : Str) (new : Node) : List (Str × Node) → List (Str × Node)
  | [] => [(name, new)]
  | (n, m) :: rest => if n = name then (n, new) :: rest else (n, m) :: setChild name new rest

/-- The object reached from `n` by following the names `k`. -/
def nodeAt : Node → List Str → Option Node
  | n, [] => some n
  | .file _, _ :: _ => none
  | .dir ch, name :: k =>
    match findChild name ch with
    | some m => nodeAt m k
    | none => none

/-- The tree `n` with the object at location `k` replaced by `new`, or added when only its
last name is missing; unchanged when the directory that should hold it does not exist. -/
def putAt (new : Node) : Node → List Str → Node
  | _, [] => new
  | .file c, _ :: _ => .file c
  | .dir ch, name :: k =>
    match findChild name ch with
    | some m => .dir (setChild name (putAt new m k) ch)
    | none => if k = [] then .dir (setChild name new ch) else .dir ch

/-- Is the node a directory? -/
def Node.isDir : Node → Bool
  | .dir _ => true
  | .file _ => false

/-- The outcome of resolving a path name. -/
inductive Resolved where
  | found (loc : List Str) (node : Node)
  | missing (loc : List Str)
  | failed (e : Errno)

/-- Path resolution: from the directory at location `cur`, follow the elements one by one.
Every element is looked up in a directory (`ENOTDIR` otherwise); an empty element stays;
any other element needs the directory to be searchable (`EACCES` otherwise); `.` stays,
`..` goes to the parent (the root is its own parent), a name, of `NAME_MAX` bytes at most
(`ENAMETOOLONG` otherwise), goes to the entry of that name.  A name that is missing gives
`missing` when it is the last element (the directory that would hold it exists) and
`ENOENT` otherwise. -/
def walk (deny : Access → List Str → Bool) (root : Node) : List Str → List Str → Resolved
  | cur, [] =>
    match nodeAt root cur with
    | some n => .found cur n
    | none => .failed .ENOENT
  | cur, e :: rest =>
    match nodeAt root cur with
    | some (.dir ch) =>
      if e = [] then walk deny root cur rest
      else if deny .search cur then .failed .EACCES
      else if e = dot then walk deny root cur rest
      else if e = dotdot then walk deny root cur.dropLast rest
      else if nameMax < byteLen e then .failed .ENAMETOOLONG
      else
        match findChild e ch with
        | some _ => walk deny root (cur ++ [e]) rest
        | none => if rest = [] then .missing (cur ++ [e]) else .failed .ENOENT
    | some (.file _) => .failed .ENOTDIR
    | none => .failed .ENOENT

/-- The elements to follow from the root for the path name `p`: those of `p` itself when it
is rooted, the working directory followed by those of `p` otherwise. -/
def absElems (fs : FS) (p : Str) : List Str :=
  (if isRooted p then [] else fs.cwd) ++ splitSep p

/-- The error of a path name that no system call accepts: the empty name (`ENOENT`), a
name with a NUL byte (`EINVAL`), a name of `PATH_MAX` bytes or more (`ENAMETOOLONG`). -/
def pathError (p : Str) : Option Errno :=
  if p = [] then some .ENOENT
  else if p.contains (Char.ofNat 0) then some .EINVAL
  else if pathMax ≤ byteLen p then some .ENAMETOOLONG
  else none

/-- Resolution of a path name. -/
def resolve (fs : FS) (p : Str) : Resolved :=
  match pathError p with
  | some e => .failed e
  | none => walk fs.denied fs.rootNode [] (absElems fs p)

/-- What the program uses of an `os.FileInfo`. -/
structure FileInfo where
  isDir : Bool
  deriving DecidableEq, Repr

/-- Model of `os.Stat`. -/
def osStat (fs : FS) (p : Str) : Except Errno FileInfo :=
  match resolve fs p with
  | .found _ n => .ok { isDir := n.isDir }
  | .missing _ => .error .ENOENT
  | .failed e => .error e

/-- The walk of `os.MkdirAll`: as `walk`, but a missing name is created as an empty
directory and entered, unless the system refuses to create an entry in the directory.  The
result is the tree afterwards and whether the walk ended in a directory, with no error. -/
def mkWalk (deny : Access → List Str → Bool) : Node → List Str → List Str → Node × Bool
  | root, cur, [] =>
    match nodeAt root cur with
    | some (.dir _) => (root, true)
    | _ => (root, false)
  | root, cur, e :: rest =>
    match nodeAt root cur with
    | some (.dir ch) =>
      if e = [] then mkWalk deny root cur rest
      else if deny .search cur then (root, false)
      else if e = dot then mkWalk deny root cur rest
      else if e = dotdot then mkWalk deny root cur.dropLast rest
      else if nameMax < byteLen e then (root, false)
      else
        match findChild e ch with
        | some _ => mkWalk deny root (cur ++ [e]) rest
        | none =>
          if deny .write cur then (root, false)
          else mkWalk deny (putAt (.dir []) root (cur ++ [e])) (cur ++ [e]) rest
    | _ => (root, false)

/-- The entries of the root directory of a tree. -/
def Node.entries : Node → List (Str × Node)
  | .dir ch => ch
  | .file _ => []

/-- Model of `os.MkdirAll`: the filesystem afterwards and whether the call succeeded (it
returned a nil error). -/
def osMkdirAll (fs : FS) (p : Str) : FS × Bool :=
  match pathError p with
  | some _ => (fs, false)
  | none =>
    let r := mkWalk fs.denied fs.rootNode [] (absElems fs p)
    ({ fs with root := r.1.entries }, r.2)

/-- The filesystem with the object at location `loc` set to `new`. -/
def FS.put (fs : FS) (loc : List Str) (new : Node) : FS :=
  { fs with root := (putAt new fs.rootNode loc).entries }

/-- Model of `os.Create`: the file is created empty, or truncated when it exists; the
result is the filesystem afterwards and the location of the open file. -/
def osCreate (fs : FS) (p : Str) : Except Errno (FS × List Str) :=
  match resolve fs p with
  | .found loc (.file _) =>
    if fs.denied .write loc then .error .EACCES else .ok (fs.put loc (.file []), loc)
  | .found _ (.dir _) => .error .EISDIR
  | .missing loc =>
    if fs.denied .write loc.dropLast then .error .EACCES else .ok (fs.put loc (.file []), loc)
  | .failed e => .error e

/-- Model of `(*os.File).WriteString` on the file open at `loc`, written from its end. -/
def writeString (fs : FS) (loc : List Str) (s : Str) : FS :=
  match nodeAt fs.rootNode loc with
  | some (.file c) => fs.put loc (.file (c ++ s))
  | _ => fs

/-- The content of the regular file named `p` (`os.Open` and reading to the end). -/
def readFile (fs : FS) (p : Str) : Except Errno Str :=
  match resolve fs p with
  | .found loc (.file c) => if fs.denied .read loc then .error .EACCES else .ok c
  | .found _ (.dir _) => .error .EISDIR
  | .missing _ => .error .ENOENT
  | .failed e => .error e

/-- Model of `os.WriteFile`: create or truncate, then write; the filesystem is unchanged
when the file cannot be created. -/
def writeFile (fs : FS) (p : Str) (data : Str) : FS :=
  match osCreate fs p with
  | .ok (fs1, loc) => writeString fs1 loc data
  | .error _ => fs

/-- Model of `os.Open` followed by `Readdirnames(-1)`: the names in a directory. -/
def readDirNames (fs : FS) (p : Str) : Except Errno (List Str) :=
  match resolve fs p with
  | .found loc (.dir ch) => if fs.denied .read loc then .error .EACCES else .ok (ch.map Prod.fst)
  | .found _ (.file _) => .error .ENOTDIR
  | .missing _ => .error .ENOENT
  | .failed e => .error e

/-! ## Configuration store (`github.com/go-ini/ini`) -/

/-- A section of an INI file: its name and its keys with their values, in order. -/
structure IniSection where
  name : Str
  keys : List (Str × Str)
  deriving DecidableEq, Repr

/-- An `ini.File` in memory: its sections, in order. -/
abbrev IniFile := List IniSection

/-- The name of the section that holds the keys written before any section header. -/
def defaultSection : Str := "DEFAULT".toList

/-- The textual side of the INI library, taken as a parameter: `load` parses the content of
a file (`none` is a parse error), `save` renders a store (`SaveTo`). -/
structure IniCodec where
  load : Str → Option IniFile
  save : IniFile → Str

/-- The value of `key` among the keys of a section, when it is there. -/
def lookupKey (key : Str) : List (Str × Str) → Option Str
  | [] => none
  | (k, v) :: rest => if k = key then some v else lookupKey key rest

/-- The keys of a section with `key` set to `v`: in place when the key is there, at the end
otherwise. -/
def setKey (key v : Str) : List (Str × Str) → List (Str × Str)
  | [] => [(key, v)]
  | (k, w) :: rest => if k = key then (k, v) :: rest else (k, w) :: setKey key v rest

/-- The section called `name`, when it is there. -/
def getSection (name : Str) : IniFile → Option IniSection
  | [] => none
  | s :: rest => if s.name = name then some s else getSection name rest

/-- The store with the keys of section `name` transformed by `f`; a section that is not
there is first created, empty, at the end (`File.Section` creates on demand). -/
def updateSection (name : Str) (f : List (Str × Str) → List (Str × Str)) : IniFile → IniFile
  | [] => [{ name := name, keys := f [] }]
  | s :: rest =>
    if s.name = name then { s with keys := f s.keys } :: rest
    else s :: updateSection name f rest

/-- The variable reference at the start of a text, the pattern `%\(([^)]+)\)s` of the
library: `%(`, a name of one character at least without `)`, then `)s`.  The result is the
name. -/
def matchVar : Str → Option Str
  | '%' :: '(' :: t =>
    match t.span (fun c => c != ')') with
    | (name, ')' :: 's' :: _) => if name = [] then none else some name
    | _ => none
  | _ => none

/-- The name of the first variable reference in a text. -/
def findVar : Str → Option Str
  | [] => none
  | c :: cs =>
    match matchVar (c :: cs) with
    | some name => some name
    | none => findVar cs

/-- The text of the reference to the variable `name`. -/
def varRef (name : Str) : Str := '%' :: '(' :: name ++ [')', 's']

/-- Model of `strings.Replace(val, old, new, -1)` for a non-empty `old`: every occurrence,
from the left and without overlap.  The first argument counts the characters of an
occurrence still to be skipped. -/
def replaceAll (old new : Str) : Nat → Str → Str
  | _, [] => []
  | skip + 1, _ :: cs => replaceAll old new skip cs
  | 0, c :: cs =>
    if old.isPrefixOf (c :: cs) then new ++ replaceAll old new (old.length - 1) cs
    else c :: replaceAll old new 0 cs

/-- The value of the key `name` in section `sec`, when both are there. -/
def rawValue (conf : IniFile) (sec name : Str) : Option Str :=
  (getSection sec conf).bind (fun s => lookupKey name s.keys)

/-- Model of `Key.transformValue`, the expansion that `Key.String` makes: as long as the
value holds a reference `%(name)s`, at most `depth` times, the first reference is replaced
everywhere by the stored value of the key `name` of the same section or, when that key is
missing or is the key itself, of the default section (created on demand); the expansion
stops when the default section has no such key. -/
def expandValue (sec key : Str) : Nat → IniFile → Str → Str × IniFile
  | 0, conf, val => (val, conf)
  | depth + 1, conf, val =>
    match findVar val with
    | none => (val, conf)
    | some name =>
      match (if name = key then none else rawValue conf sec name) with
      | some v => expandValue sec key depth conf (replaceAll (varRef name) v 0 val)
      | none =>
        let conf1 := updateSection defaultSection id conf
        match rawValue conf1 defaultSection name with
        | some v => expandValue sec key depth conf1 (replaceAll (varRef name) v 0 val)
        | none => (val, conf1)

/-- The number of expansions that `Key.transformValue` makes at most (`depthValues`). -/
def depthValues : Nat := 99

/-- Model of `conf.Section(sec).Key(key)` read with `String()`: the expanded value of the
key, and the store afterwards.  A section or key that is not there is created with the
empty value.  (Section names are those of the program, without the child-section
delimiter.) -/
def sectionKey (conf : IniFile) (sec key : Str) : Str × IniFile :=
  match getSection sec conf with
  | some s =>
    match lookupKey key s.keys with
    | some v => expandValue sec key depthValues conf v
    | none => ([], updateSection sec (setKey key []) conf)
  | none => ([], updateSection sec (setKey key []) conf)

/-- Model of `conf.Section(sec).Key(key).SetValue(v)`. -/
def setValue (conf : IniFile) (sec key v : Str) : IniFile :=
  updateSection sec (setKey key v) conf

/-- The value of a digit character in bases up to 16. -/
def digitVal (c : Char) : Option Nat :=
  if '0' ≤ c ∧ c ≤ '9' then some (c.toNat - '0'.toNat)
  else if 'a' ≤ c ∧ c ≤ 'f' then some (c.toNat - 'a'.toNat + 10)
  else if 'A' ≤ c ∧ c ≤ 'F' then some (c.toNat - 'A'.toNat + 10)
  else none

/-- The digits of an unsigned number in `base`, underscores skipped, read from left to
right onto `acc`; `none` when a character is not a digit of the base. -/
def parseDigits (base : Nat) : Nat → Str → Option Nat
  | acc, [] => some acc
  | acc, c :: cs =>
    if c = '_' then parseDigits base acc cs
    else
      match digitVal c with
      | some d => if d < base then parseDigits base (acc * base + d) cs else none
      | none => none

/-- The check `underscoreOK` of `strconv`: an underscore stands only between two digits, or
between the base prefix and a digit.  `prev` tells whether the character before is a digit
(or the base prefix). -/
def underscoresOK : Bool → Str → Bool
  | _, [] => true
  | prev, c :: cs =>
    if c = '_' then prev && (match cs with | d :: _ => d != '_' | [] => false) && underscoresOK false cs
    else underscoresOK true cs

/-- The base prefix of an unsigned literal read with base 0: the base and the rest. -/
def basePrefix (s : Str) : Nat × Str × Bool :=
  match s with
  | '0' :: c :: d :: rest =>
    if c = 'b' ∨ c = 'B' then (2, d :: rest, true)
    else if c = 'o' ∨ c = 'O' then (8, d :: rest, true)
    else if c = 'x' ∨ c = 'X' then (16, d :: rest, true)
    else (8, c :: d :: rest, true)
  | '0' :: rest => (8, rest, true)
  | _ => (10, s, false)

/-- Model of `strconv.ParseUint(s, 0, 64)` without the range check. -/
def parseUint (s : Str) : Option Nat :=
  if s = [] then none
  else
    let (base, digits, pfx) := basePrefix s
    if underscoresOK pfx digits then parseDigits base 0 digits else none

/-- Model of `Key.Int`, which is `strconv.ParseInt(value, 0, 64)`: an optional sign, then an
unsigned literal with an optional base prefix; `none` is an error (syntax or range). -/
def parseInt (s : Str) : Option Int :=
  match s with
  | [] => none
  | '+' :: rest =>
    match parseUint rest with
    | some n => if n < 2 ^ 63 then some (n : Int) else none
    | none => none
  | '-' :: rest =>
    match parseUint rest with
    | some n => if n ≤ 2 ^ 63 then some (-(n : Int)) else none
    | none => none
  | _ =>
    match parseUint s with
    | some n => if n < 2 ^ 63 then some (n : Int) else none
    | none => none

/-! ### A codec for plain INI text

The codec below reads and writes the plain subset of the INI format: section headers in
brackets, `key = value` lines, comment lines.  It is the codec of the evaluations on
concrete filesystems; the general theorems hold for every codec. -/

/-- The lines of a text (`\n` ends a line). -/
def splitLines : Str → List Str
  | [] => [[]]
  | c :: cs =>
    if c = '\n' then [] :: splitLines cs
    else
      match splitLines cs with
      | [] => [[c]]
      | x :: xs => (c :: x) :: xs

/-- Blank characters. -/
def isBlank (c : Char) : Bool := c == ' ' || c == '\t' || c == '\r'

/-- The text without leading and trailing blanks. -/
def trim (s : Str) : Str :=
  ((s.dropWhile isBlank).reverse.dropWhile isBlank).reverse

/-- One line read into the store; the second component of the state is the section in
effect.  A blank line and a comment line are skipped; a line that starts with `[` names a
section, up to its last `]` (the line is an error without one); any other line is a key and
a value around the first `=` or `:` (the line is an error without one). -/
def loadLine (st : IniFile × Str) (line : Str) : Option (IniFile × Str) :=
  match trim line with
  | [] => some st
  | c :: rest =>
    if c = '#' ∨ c = ';' then some st
    else if c = '[' then
      match rest.reverse.dropWhile (fun d => d != ']') with
      | _ :: eman =>
        let name := eman.reverse
        if name = [] then none else some (updateSection name id st.1, name)
      | [] => none
    else
      match (c :: rest).span (fun d => d != '=' && d != ':') with
      | (_, []) => none
      | (k, _ :: v) =>
        if trim k = [] then none
        else some (updateSection st.2 (setKey (trim k) (trim v)) st.1, st.2)

/-- The lines read one after the other. -/
def loadLines : IniFile × Str → List Str → Option IniFile
  | st, [] => some st.1
  | st, l :: ls =>
    match loadLine st l with
    | some st1 => loadLines st1 ls
    | none => none

/-- Parsing plain INI text; a loaded store always has the default section. -/
def plainLoad (content : Str) : Option IniFile :=
  loadLines ([{ name := defaultSection, keys := [] }], defaultSection) (splitLines content)

/-- The longest key name of a section (for the alignment of the equal signs). -/
def alignLength (keys : List (Str × Str)) : Nat :=
  keys.foldl (fun n kv => max n kv.1.length) 0

/-- The lines of the keys of a section, the equal signs aligned. -/
def saveKeys (width : Nat) : List (Str × Str) → Str
  | [] => []
  | (k, v) :: rest =>
    k ++ List.replicate (width - k.length) ' ' ++ " = ".toList ++ v ++ '\n' :: saveKeys width rest

/-- The sections written one after the other; `first` tells whether the section is the first
one, whose header is left out when it is the default section (and which is left out
altogether when it has no keys). -/
def saveSections : Bool → IniFile → Str
  | _, [] => []
  | first, s :: rest =>
    if first && s.name == defaultSection then
      (if s.keys = [] then [] else saveKeys (alignLength s.keys) s.keys ++ ['\n'])
        ++ saveSections false rest
    else
      '[' :: s.name ++ ']' :: '\n' :: saveKeys (alignLength s.keys) s.keys ++ '\n'
        :: saveSections false rest

/-- Writing plain INI text. -/
def plainSave (conf : IniFile) : Str := saveSections true conf

/-- The codec for plain INI text. -/
def plainIni : IniCodec := { load := plainLoad, save := plainSave }

/-- Model of `ini.Load(path)`: the file is read and parsed; `none` when it cannot be read
(it is missing, or a directory) or does not parse. -/
def iniLoad (ini : IniCodec) (fs : FS) (p : Str) : Option IniFile :=
  match readFile fs p with
  | .ok content => ini.load content
  | .error _ => none

/-! ## The program (`gogit.go`) -/

/-- The type `gitRepository`; `conf` is a pointer, `none` when nil. -/
structure gitRepository where
  worktree : Str
  gitdir : Str
  conf : Option IniFile

/-- The ways the program panics. -/
inductive Panic where
  | notAGitRepository
  | configurationFileMissing
  | configurationFileReadError
  | unsupportedRepositoryFormatVersion
  | isNotADirectory (path : Str)
  | isNotEmpty (path : Str)
  | osError (e : Errno)
  | iniError
  | nilDereference
  | sliceBoundsOutOfRange
  deriving DecidableEq, Repr

/-- The errors that `obtainDir` and `obtainFile` return. -/
inductive ObtainError where
  | notAFile
  | isNotADirectory (path : Str)
  | doesNotExist (path : Str)
  deriving DecidableEq, Repr

/-- The name of the control directory. -/
def dotGit : Str := ".git".toList

/-- The function `getPath`: the segments joined one by one, then joined onto `gitdir`. -/
def getPath (repo : gitRepository) (paths : List Str) : Str :=
  join [repo.gitdir, paths.foldl (fun newPath path => join [newPath, path]) []]

/-- The function `makePath`. -/
def makePath (paths : List Str) : Str :=
  paths.foldl (fun newPath path => join [newPath, path]) []

/-- The function `obtainDir`: the returned string and error, and the filesystem after. -/
def obtainDir (repo : gitRepository) (fs : FS) (mkdir : Bool) (paths : List Str) :
    (Str × Option ObtainError) × FS :=
  let path := getPath repo paths
  match osStat fs path with
  | .ok stat =>
    if stat.isDir then ((path, none), fs)
    else (([], some (.isNotADirectory path)), fs)
  | .error _ =>
    if mkdir then ((path, none), (osMkdirAll fs path).1)
    else (([], some (.doesNotExist path)), fs)

/-- The function `obtainFile`; slicing off the last of no segments panics. -/
def obtainFile (repo : gitRepository) (fs : FS) (mkdir : Bool) (paths : List Str) :
    Except Panic (Str × Option ObtainError) × FS :=
  if paths = [] then (.error .sliceBoundsOutOfRange, fs)
  else
    match obtainDir repo fs mkdir paths.dropLast with
    | ((_, none), fs1) => (.ok (getPath repo paths, none), fs1)
    | ((_, some _), fs1) => (.ok ([], some .notAFile), fs1)

/-- The function `isDirEmpty`: `Readdirnames(1)` gives `io.EOF` on an empty directory. -/
def isDirEmpty (fs : FS) (name : Str) : Bool × Option Errno :=
  match readDirNames fs name with
  | .error e => (false, some e)
  | .ok [] => (true, none)
  | .ok (_ :: _) => (false, none)

/-- The function `newGitRepository`. -/
def newGitRepository (ini : IniCodec) (fs : FS) (path : Str) (force : Bool) :
    Except Panic gitRepository × FS :=
  let repo : gitRepository := { worktree := path, gitdir := join [path, dotGit], conf := none }
  -- `stat, _ := os.Stat(repo.gitdir); !force && !stat.IsDir()`: `stat` is nil on an error
  let check : Except Panic Unit :=
    if force then .ok ()
    else
      match osStat fs repo.gitdir with
      | .error _ => .error .nilDereference
      | .ok stat => if stat.isDir then .ok () else .error .notAGitRepository
  match check with
  | .error e => (.error e, fs)
  | .ok _ =>
    match obtainFile repo fs false ["config".toList] with
    | (.error e, fs1) => (.error e, fs1)
    | (.ok (configPath, err), fs1) =>
      if !force && err.isSome then (.error .configurationFileMissing, fs1)
      else
        let loaded : Except Panic (Option IniFile) :=
          match osStat fs1 configPath with
          | .ok _ =>
            match iniLoad ini fs1 configPath with
            | some c => .ok (some c)
            | none => .error .configurationFileReadError
          | .error _ => .ok repo.conf
        match loaded with
        | .error e => (.error e, fs1)
        | .ok conf =>
          if force then (.ok { repo with conf := conf }, fs1)
          else
            match conf with
            | none => (.error .nilDereference, fs1)
            | some c =>
              let (value, c1) := sectionKey c "conf".toList "repositoryformatversion".toList
              match parseInt value with
              | some ver =>
                if ver ≠ 0 then (.error .unsupportedRepositoryFormatVersion, fs1)
                else (.ok { repo with conf := some c1 }, fs1)
              | none => (.error .unsupportedRepositoryFormatVersion, fs1)

/-- The text written to `description`. -/
def descriptionText : Str :=
  "Unnamed repository; edit this file 'description' to name the repository.\n".toList

/-- The text written to `HEAD`. -/
def headText : Str := "ref: refs/heads/master\n".toList

/-- The function `gitInit`. -/
def gitInit (ini : IniCodec) (fs : FS) (path : Str) : Except Panic Unit × FS :=
  match newGitRepository ini fs path true with
  | (.error e, fs0) => (.error e, fs0)
  | (.ok repo, fs0) =>
    -- `stat, err := os.Stat(repo.worktree); !os.IsNotExist(err)`
    let probe : Except Panic Unit × FS :=
      match osStat fs0 repo.worktree with
      | .error .ENOENT => (.ok (), (obtainDir repo fs0 true [path]).2)
      | .error _ => (.error .nilDereference, fs0)
      | .ok stat =>
        if !stat.isDir then (.error (.isNotADirectory path), fs0)
        else
          match isDirEmpty fs0 repo.worktree with
          | (is, err) =>
            if !is || err.isSome then (.error (.isNotEmpty path), fs0)
            else (.ok (), fs0)
    match probe with
    | (.error e, fs1) => (.error e, fs1)
    | (.ok _, fs1) =>
      let fs2 := (obtainDir repo fs1 true ["branches".toList]).2
      let fs3 := (obtainDir repo fs2 true ["objects".toList]).2
      let fs4 := (obtainDir repo fs3 true ["refs".toList, "tags".toList]).2
      let fs5 := (obtainDir repo fs4 true ["refs".toList, "heads".toList]).2
      -- `fPath, _ := obtainFile(repo, false, "description")`, `os.Create`, `WriteString`
      match obtainFile repo fs5 false ["description".toList] with
      | (.error e, fs6) => (.error e, fs6)
      | (.ok (fPath, _), fs6) =>
      match osCreate fs6 fPath with
      | .error e => (.error (.osError e), fs6)
      | .ok (fs6a, f) =>
      let fs6b := writeString fs6a f descriptionText
      -- the same for `HEAD`
      match obtainFile repo fs6b false ["HEAD".toList] with
      | (.error e, fs7) => (.error e, fs7)
      | (.ok (fPath, _), fs7) =>
      match osCreate fs7 fPath with
      | .error e => (.error (.osError e), fs7)
      | .ok (fs7a, f) =>
      let fs7b := writeString fs7a f headText
      -- `config`: created empty, loaded, the three keys set, saved
      match obtainFile repo fs7b false ["config".toList] with
      | (.error e, fs8) => (.error e, fs8)
      | (.ok (fPath, _), fs8) =>
      match osCreate fs8 fPath with
      | .error e => (.error (.osError e), fs8)
      | .ok (fs9, _) =>
      match iniLoad ini fs9 fPath with
      | none => (.error .iniError, fs9)
      | some conf =>
        let conf1 := setValue conf "core".toList "repositoryformatversion".toList "0".toList
        let conf2 := setValue conf1 "core".toList "filemode".toList "false".toList
        let conf3 := setValue conf2 "core".toList "bare".toList "false".toList
        (.ok (), writeFile fs9 fPath (ini.save conf3))

/-! ## Predicates on filesystem states -/

/-- Every object of the tree `r` is still there in `r1`, as an object of the same kind. -/
def Extends (r r1 : Node) : Prop :=
  ∀ k n, nodeAt r k = some n → ∃ n1, nodeAt r1 k = some n1 ∧ n1.isDir = n.isDir

/-- Every prefix of the elements `es`, followed from `cur`, ends in a directory. -/
def AllDirs (deny : Access → List Str → Bool) (r : Node) (cur es : List Str) : Prop :=
  ∀ cs, cs <+: es → ∃ loc ch, walk deny r cur cs = .found loc (.dir ch)

/-- Does the resolution end in a directory? -/
def Resolved.isDir : Resolved → Bool
  | .found _ (.dir _) => true
  | _ => false

/-- The path `p` and all its ancestors exist as directories: every prefix of the elements
of `p` leads to a directory. -/
def dirsAlong (fs : FS) (p : Str) : Bool :=
  (absElems fs p).inits.all (fun cs => (walk fs.denied fs.rootNode [] cs).isDir)

/-! ## Sample states -/

/-- The filesystem with an empty root directory; the working directory is the root. -/
def emptyFS : FS := { root := [], cwd := [], denied := fun _ _ => false }

/-- The handle of the work tree `/a`. -/
def repoA : gitRepository :=
  { worktree := "/a".toList, gitdir := "/a/.git".toList, conf := none }

/-- A filesystem in which `/a/.git` is a regular file. -/
def gitFileFS : FS :=
  { root := [("a".toList, .dir [(".git".toList, .file [])])], cwd := [], denied := fun _ _ => false }

/-- The handle that `newGitRepository` builds for the work tree `path`, before the
configuration is loaded. -/
def freshRepo (path : Str) : gitRepository :=
  { worktree := path, gitdir := join [path, dotGit], conf := none }

/-- The path of the configuration file of the work tree `path`. -/
def configPathOf (path : Str) : Str := getPath (freshRepo path) ["config".toList]

/-- A filesystem in which `/a/.git/config` is a regular file with the given content. -/
def configFS (content : Str) : FS :=
  { root := [("a".toList, .dir [(".git".toList, .dir [("config".toList, .file content)])])],
    cwd := [], denied := fun _ _ => false }

/-- A filesystem in which `/b/.git/config` is a directory. -/
def configDirFS : FS :=
  { root := [("b".toList, .dir [(".git".toList, .dir [("config".toList, .dir [])])])],
    cwd := [], denied := fun _ _ => false }

/-- A filesystem in which `/a/.git` is an empty directory. -/
def bareGitFS : FS :=
  { root := [("a".toList, .dir [(".git".toList, .dir [])])], cwd := [], denied := fun _ _ => false }

/-! ## Predicates on paths -/

/-- The elements of the segments, one segment after the other. -/
def elemsOf (paths : List Str) : List Str := paths.flatMap splitSep

/-- A well-formed stack of `filepath.Clean`: every element is free of separators and is
neither empty nor `.`; a `..` occurs only in a relative path and only at the bottom, with
nothing but `..` below it. -/
def StackOK (rooted : Bool) : List Str → Prop
  | [] => True
  | t :: rest =>
    sep ∉ t ∧ t ≠ [] ∧ t ≠ dot ∧ (t = dotdot → rooted = false ∧ ∀ x ∈ rest, x = dotdot) ∧
      StackOK rooted rest

/-- Some `..` among the segments `s2` climbs above the root of the rooted path that the
segments `s1` form: the elements of `s2`, processed as those of a relative path on top of
the stack of that rooted path, leave a `..` on the stack. -/
def climbsAbove (s1 s2 : List Str) : Bool :=
  (cleanRun false (cleanRun true [] (elemsOf s1)) (elemsOf s2)).contains dotdot

/-- The names of a stack: its elements other than `..`. -/
def stripDots (st : List Str) : List Str := st.filter (fun x => x != dotdot)

/-- The `..` elements of a stack. -/
def onlyDots (st : List Str) : List Str := st.filter (fun x => x == dotdot)

/-- The number of names of a stack less the number of its `..` elements. -/
def balance (st : List Str) : Int := (stripDots st).length - (onlyDots st).length

/-- The first segment that is not empty, when there is one, is not rooted. -/
def firstRelative (paths : List Str) : Bool :=
  match paths.dropWhile (fun e => e == []) with
  | [] => true
  | e :: _ => !isRooted e

/-- A filesystem whose only object is the empty directory `/branches`, which is also the
working directory: there `main` calls `gitInit` with the path `/branches/a`. -/
def branchesFS : FS :=
  { root := [("branches".toList, .dir [])], cwd := ["branches".toList], denied := fun _ _ => false }

/-- The filesystem left by `gitInit` on the work tree `/a` of the empty filesystem. -/
def initialisedFS : FS := (gitInit plainIni emptyFS "/a".toList).2

/-- A configuration text whose section `core` has format version 1 and whose section `conf`
has format version 0. -/
def twoVersionsText : Str :=
  "[core]\nrepositoryformatversion = 1\n[conf]\nrepositoryformatversion = 0\n".toList

/-! ## Lemmas on paths -/

theorem splitSep_ne_nil (p : Str) : splitSep p ≠ [] := by
  induction p with
  | nil => simp [splitSep]
  | cons c cs ih =>
    simp only [splitSep]
    split
    · simp
    · split <;> simp

theorem splitSep_append (a b : Str) : splitSep (a ++ sep :: b) = splitSep a ++ splitSep b := by
  induction a with
  | nil => simp [splitSep]
  | cons c cs ih =>
    have h1 : (c :: cs) ++ sep :: b = c :: (cs ++ sep :: b) := rfl
    rw [h1]
    by_cases hc : c = sep
    · simp only [splitSep, hc, if_true]
      rw [ih]
      rfl
    · simp only [splitSep, hc, if_false]
      rw [ih]
      cases hs : splitSep cs with
      | nil => exact absurd hs (splitSep_ne_nil cs)
      | cons x xs => rfl

theorem splitSep_of_not_mem (e : Str) (h : sep ∉ e) : splitSep e = [e] := by
  induction e with
  | nil => rfl
  | cons c cs ih =>
    have hc : c ≠ sep := fun hc => h (by simp [hc])
    have hcs : sep ∉ cs := fun hm => h (List.mem_cons_of_mem _ hm)
    simp [splitSep, hc, ih hcs]

theorem not_mem_of_mem_splitSep (p e : Str) (h : e ∈ splitSep p) : sep ∉ e := by
  induction p generalizing e with
  | nil =>
    simp only [splitSep, List.mem_singleton] at h
    subst h
    simp
  | cons c cs ih =>
    simp only [splitSep] at h
    by_cases hc : c = sep
    · simp only [hc, if_true, List.mem_cons] at h
      rcases h with rfl | h
      · simp
      · exact ih e h
    · simp only [hc, if_false] at h
      cases hs : splitSep cs with
      | nil => exact absurd hs (splitSep_ne_nil cs)
      | cons x xs =>
        rw [hs] at h ih
        simp only [List.mem_cons] at h
        rcases h with rfl | h
        · have hx := ih x (by simp)
          simp only [List.mem_cons, not_or]
          exact ⟨fun h => hc h.symm, hx⟩
        · exact ih e (by simp [h])

theorem splitSep_joinSep (es : List Str) (h : es ≠ []) :
    splitSep (joinSep es) = elemsOf es := by
  induction es with
  | nil => exact absurd rfl h
  | cons e rest ih =>
    cases rest with
    | nil => simp [joinSep, elemsOf]
    | cons e1 rest1 =>
      have := ih (by simp)
      simp only [joinSep, splitSep_append, this, elemsOf, List.flatMap_cons]

theorem elemsOf_append (s1 s2 : List Str) : elemsOf (s1 ++ s2) = elemsOf s1 ++ elemsOf s2 := by
  simp [elemsOf]

theorem not_mem_of_mem_elemsOf (s : List Str) (e : Str) (h : e ∈ elemsOf s) : sep ∉ e := by
  simp only [elemsOf, List.mem_flatMap] at h
  obtain ⟨p, _, hp⟩ := h
  exact not_mem_of_mem_splitSep p e hp

theorem elemsOf_of_not_mem (es : List Str) (h : ∀ e ∈ es, sep ∉ e) : elemsOf es = es := by
  induction es with
  | nil => rfl
  | cons e rest ih =>
    simp only [elemsOf, List.flatMap_cons] at ih ⊢
    rw [splitSep_of_not_mem e (h e (by simp)), ih (fun x hx => h x (List.mem_cons_of_mem _ hx))]
    rfl

theorem cleanRun_append (r : Bool) (T a b : List Str) :
    cleanRun r T (a ++ b) = cleanRun r (cleanRun r T a) b := by
  simp [cleanRun, List.foldl_append]

theorem cleanRun_cons (r : Bool) (T : List Str) (e : Str) (es : List Str) :
    cleanRun r T (e :: es) = cleanRun r (cleanStep r T e) es := rfl

theorem cleanRun_nil (r : Bool) (T : List Str) : cleanRun r T [] = T := rfl

theorem cleanRun_snoc (r : Bool) (T a : List Str) (e : Str) :
    cleanRun r T (a ++ [e]) = cleanStep r (cleanRun r T a) e := by
  rw [cleanRun_append]
  rfl

theorem cleanStep_skip (r : Bool) (T : List Str) (e : Str) (h : e = [] ∨ e = dot) :
    cleanStep r T e = T := by
  simp [cleanStep, h]

theorem cleanStep_name (r : Bool) (T : List Str) (e : Str) (h1 : e ≠ []) (h2 : e ≠ dot)
    (h3 : e ≠ dotdot) : cleanStep r T e = e :: T := by
  simp [cleanStep, h1, h2, h3]

theorem cleanRun_skips (r : Bool) (T es : List Str) (h : ∀ e ∈ es, e = [] ∨ e = dot) :
    cleanRun r T es = T := by
  induction es with
  | nil => rfl
  | cons e rest ih =>
    rw [cleanRun_cons, cleanStep_skip r T e (h e (by simp))]
    exact ih (fun x hx => h x (List.mem_cons_of_mem _ hx))

theorem stackOK_mem (r : Bool) (st : List Str) (h : StackOK r st) :
    ∀ x ∈ st, sep ∉ x ∧ x ≠ [] ∧ x ≠ dot := by
  induction st with
  | nil => simp
  | cons t rest ih =>
    obtain ⟨h1, h2, h3, _, h5⟩ := h
    intro x hx
    rcases List.mem_cons.mp hx with rfl | hx
    · exact ⟨h1, h2, h3⟩
    · exact ih h5 x hx

theorem stackOK_cleanStep (r : Bool) (T : List Str) (e : Str) (hT : StackOK r T)
    (he : sep ∉ e) : StackOK r (cleanStep r T e) := by
  by_cases hs : e = [] ∨ e = dot
  · rw [cleanStep_skip r T e hs]
    exact hT
  · have h1 : e ≠ [] := fun h => hs (Or.inl h)
    have h2 : e ≠ dot := fun h => hs (Or.inr h)
    by_cases hd : e = dotdot
    · subst hd
      cases T with
      | nil =>
        cases r
        · exact ⟨by decide, by decide, by decide, fun _ => ⟨rfl, by simp⟩, trivial⟩
        · exact trivial
      | cons t rest =>
        by_cases ht : t = dotdot
        · subst ht
          obtain ⟨_, _, _, h4, h5⟩ := hT
          obtain ⟨hr, hall⟩ := h4 rfl
          subst hr
          have : cleanStep false (dotdot :: rest) dotdot = dotdot :: dotdot :: rest := by
            simp [cleanStep, dotdot, dot]
          rw [this]
          exact ⟨by decide, by decide, by decide,
            fun _ => ⟨rfl, by
              intro x hx
              rcases List.mem_cons.mp hx with rfl | hx
              · rfl
              · exact hall x hx⟩,
            by decide, by decide, by decide, fun _ => ⟨rfl, hall⟩, h5⟩
        · have : cleanStep r (t :: rest) dotdot = rest := by
            simp [cleanStep, dotdot, dot] at ht ⊢
            simp [ht]
          rw [this]
          exact hT.2.2.2.2
    · rw [cleanStep_name r T e h1 h2 hd]
      exact ⟨he, h1, h2, fun h => absurd h hd, hT⟩

theorem stackOK_cleanRun (r : Bool) (T es : List Str) (hT : StackOK r T)
    (hes : ∀ e ∈ es, sep ∉ e) : StackOK r (cleanRun r T es) := by
  induction es generalizing T with
  | nil => exact hT
  | cons e rest ih =>
    rw [cleanRun_cons]
    exact ih _ (stackOK_cleanStep r T e hT (hes e (by simp)))
      (fun x hx => hes x (List.mem_cons_of_mem _ hx))

/-- Replaying a well-formed stack from the empty stack gives the stack back. -/
theorem cleanRun_reverse_self (r : Bool) (st : List Str) (h : StackOK r st) :
    cleanRun r [] st.reverse = st := by
  induction st with
  | nil => rfl
  | cons t rest ih =>
    obtain ⟨_, h2, h3, h4, h5⟩ := h
    rw [List.reverse_cons, cleanRun_snoc, ih h5]
    by_cases hd : t = dotdot
    · subst hd
      obtain ⟨hr, hall⟩ := h4 rfl
      subst hr
      cases rest with
      | nil => simp [cleanStep, dotdot, dot]
      | cons u rest1 =>
        have hu : u = dotdot := hall u (by simp)
        subst hu
        simp [cleanStep, dotdot, dot]
    · exact cleanStep_name r rest t h2 h3 hd

/-- Replaying the stack of a relative path, on top of any stack and in any mode, is the
same as processing the elements of the path. -/
theorem cleanRun_replay (r : Bool) (T cs : List Str) (hcs : ∀ e ∈ cs, sep ∉ e) :
    cleanRun r T (cleanRun false [] cs).reverse = cleanRun r T cs := by
  induction cs using List.reverseRecOn with
  | nil => rfl
  | append_singleton cs c ih =>
    have hcs1 : ∀ e ∈ cs, sep ∉ e := fun e he => hcs e (by simp [he])
    have ih := ih hcs1
    have hok := stackOK_cleanRun false [] cs trivial hcs1
    rw [cleanRun_snoc, cleanRun_snoc, ← ih]
    generalize cleanRun false [] cs = S at hok ⊢
    by_cases hs : c = [] ∨ c = dot
    · rw [cleanStep_skip false S c hs, cleanStep_skip r _ c hs]
    · have h1 : c ≠ [] := fun h => hs (Or.inl h)
      have h2 : c ≠ dot := fun h => hs (Or.inr h)
      by_cases hd : c = dotdot
      · subst hd
        cases S with
        | nil => rfl
        | cons t rest =>
          by_cases ht : t = dotdot
          · subst ht
            have : cleanStep false (dotdot :: rest) dotdot = dotdot :: dotdot :: rest := by
              simp [cleanStep, dotdot, dot]
            rw [this, List.reverse_cons, cleanRun_snoc]
          · have : cleanStep false (t :: rest) dotdot = rest := by
              simp [cleanStep, dotdot, dot] at ht ⊢
              simp [ht]
            rw [this, List.reverse_cons, cleanRun_snoc]
            obtain ⟨_, t2, t3, _, _⟩ := hok
            rw [cleanStep_name r _ t t2 t3 ht]
            simp [cleanStep, dotdot, dot] at ht ⊢
            simp [ht]
      · rw [cleanStep_name false S c h1 h2 hd, List.reverse_cons, cleanRun_snoc]

theorem joinSep_cons_ne_nil (e : Str) (rest : List Str) (h : e ≠ []) :
    joinSep (e :: rest) ≠ [] := by
  cases rest with
  | nil => exact h
  | cons e1 rest1 => simp [joinSep, h]

theorem isRooted_append (a b : Str) (h : a ≠ []) : isRooted (a ++ b) = isRooted a := by
  cases a with
  | nil => exact absurd rfl h
  | cons c cs => rfl

theorem isRooted_joinSep_cons (e : Str) (rest : List Str) (h : e ≠ []) :
    isRooted (joinSep (e :: rest)) = isRooted e := by
  cases rest with
  | nil => rfl
  | cons e1 rest1 => exact isRooted_append e _ h

theorem isRooted_of_not_mem (e : Str) (h : sep ∉ e) : isRooted e = false := by
  cases e with
  | nil => rfl
  | cons c cs =>
    have hc : c ≠ sep := fun hc => h (by simp [hc])
    simp [isRooted, hc]

theorem cleanOut_ne_nil (r : Bool) (st : List Str) (h : StackOK r st) : cleanOut r st ≠ [] := by
  unfold cleanOut
  cases r
  · by_cases hst : st = []
    · simp [hst, dot]
    · simp only [Bool.false_eq_true, if_false, hst]
      obtain ⟨init, l, rfl⟩ := (List.eq_nil_or_concat st).resolve_left hst
      rw [List.concat_eq_append, List.reverse_append]
      exact joinSep_cons_ne_nil l _ (stackOK_mem false _ h l (by simp)).2.1
  · simp

theorem isRooted_cleanOut (r : Bool) (st : List Str) (h : StackOK r st) :
    isRooted (cleanOut r st) = r := by
  unfold cleanOut
  cases r
  · by_cases hst : st = []
    · simp [hst, dot, isRooted, sep]
    · simp only [Bool.false_eq_true, if_false, hst]
      obtain ⟨init, l, rfl⟩ := (List.eq_nil_or_concat st).resolve_left hst
      rw [List.concat_eq_append, List.reverse_append]
      have hl := stackOK_mem false _ h l (by simp)
      show isRooted (joinSep (l :: init.reverse)) = false
      rw [isRooted_joinSep_cons l _ hl.2.1]
      exact isRooted_of_not_mem l hl.1
  · simp [isRooted]

/-- The elements of a cleaned path, processed on top of any stack, are the elements of
its stack from the bottom up. -/
theorem cleanRun_splitSep_cleanOut (r r1 : Bool) (T st : List Str) (h : StackOK r st) :
    cleanRun r1 T (splitSep (cleanOut r st)) = cleanRun r1 T st.reverse := by
  have hmem : ∀ e ∈ st.reverse, sep ∉ e := fun e he =>
    (stackOK_mem r st h e (List.mem_reverse.mp he)).1
  by_cases hst : st = []
  · subst hst
    cases r <;> rfl
  · have hrev : st.reverse ≠ [] := by simpa using hst
    have hsplit : splitSep (joinSep st.reverse) = st.reverse := by
      rw [splitSep_joinSep _ hrev, elemsOf_of_not_mem _ hmem]
    unfold cleanOut
    cases r
    · simp only [Bool.false_eq_true, if_false, hst, hsplit]
    · simp only [if_true]
      have : splitSep (sep :: joinSep st.reverse) = [] :: st.reverse := by
        simp [splitSep, hsplit]
      rw [this, cleanRun_cons, cleanStep_skip r1 T [] (Or.inl rfl)]

theorem clean_of_ne_nil (p : Str) (h : p ≠ []) :
    clean p = cleanOut (isRooted p) (cleanRun (isRooted p) [] (splitSep p)) := by
  simp [clean, h]

theorem stackOK_splitSep (r : Bool) (p : Str) : StackOK r (cleanRun r [] (splitSep p)) :=
  stackOK_cleanRun r [] _ trivial (not_mem_of_mem_splitSep p)

/-- Every cleaned path is the text of a well-formed stack. -/
theorem clean_eq_cleanOut (p : Str) : ∃ r st, StackOK r st ∧ clean p = cleanOut r st := by
  by_cases h : p = []
  · exact ⟨false, [], trivial, by simp [clean, h, cleanOut]⟩
  · exact ⟨_, _, stackOK_splitSep (isRooted p) p, clean_of_ne_nil p h⟩

/-- A cleaned path followed by more elements is cleaned by going on from its stack. -/
theorem clean_cleanOut_append (r : Bool) (st : List Str) (h : StackOK r st) (b : Str) :
    clean (cleanOut r st ++ sep :: b) = cleanOut r (cleanRun r st (splitSep b)) := by
  have hne : cleanOut r st ++ sep :: b ≠ [] := by simp
  rw [clean_of_ne_nil _ hne, isRooted_append _ _ (cleanOut_ne_nil r st h),
    isRooted_cleanOut r st h, splitSep_append, cleanRun_append,
    cleanRun_splitSep_cleanOut r r [] st h, cleanRun_reverse_self r st h]

theorem clean_cleanOut (r : Bool) (st : List Str) (h : StackOK r st) :
    clean (cleanOut r st) = cleanOut r st := by
  rw [clean_of_ne_nil _ (cleanOut_ne_nil r st h), isRooted_cleanOut r st h,
    cleanRun_splitSep_cleanOut r r [] st h, cleanRun_reverse_self r st h]

theorem join_nil_left (b : Str) (h : b ≠ []) : join [[], b] = clean b := by
  cases b with
  | nil => exact absurd rfl h
  | cons c cs => rfl

theorem join_cons_of_ne_nil (a : Str) (rest : List Str) (h : a ≠ []) :
    join (a :: rest) = clean (joinSep (a :: rest)) := by
  cases a with
  | nil => exact absurd rfl h
  | cons c cs => rfl

theorem join_nil_cons (rest : List Str) : join ([] :: rest) = join rest := rfl

theorem makePath_cons (p : Str) (rest : List Str) :
    makePath (p :: rest) = rest.foldl (fun newPath path => join [newPath, path]) (join [[], p]) :=
  rfl

theorem getPath_eq (repo : gitRepository) (paths : List Str) :
    getPath repo paths = join [repo.gitdir, makePath paths] := rfl

theorem makePath_append (s1 s2 : List Str) :
    makePath (s1 ++ s2) = s2.foldl (fun newPath path => join [newPath, path]) (makePath s1) := by
  simp [makePath, List.foldl_append]

theorem elemsOf_cons (p : Str) (rest : List Str) : elemsOf (p :: rest) = splitSep p ++ elemsOf rest := by
  simp [elemsOf]

/-- Joining segments one by one onto a cleaned path goes on from its stack. -/
theorem foldl_join_cleanOut (r : Bool) (st : List Str) (h : StackOK r st) (s : List Str) :
    s.foldl (fun newPath path => join [newPath, path]) (cleanOut r st)
      = cleanOut r (cleanRun r st (elemsOf s)) := by
  induction s generalizing st with
  | nil => rfl
  | cons p rest ih =>
    have hstep : join [cleanOut r st, p] = cleanOut r (cleanRun r st (splitSep p)) := by
      rw [join_cons_of_ne_nil _ _ (cleanOut_ne_nil r st h)]
      exact clean_cleanOut_append r st h p
    simp only [List.foldl_cons, hstep]
    rw [ih _ (stackOK_cleanRun r st _ h (not_mem_of_mem_splitSep p)), elemsOf_cons,
      cleanRun_append]

/-- Joining a cleaned path with segments in one call goes on from its stack as well. -/
theorem join_cleanOut_cons (r : Bool) (st : List Str) (h : StackOK r st) (s : List Str) :
    join (cleanOut r st :: s) = cleanOut r (cleanRun r st (elemsOf s)) := by
  have hne := cleanOut_ne_nil r st h
  rw [join_cons_of_ne_nil _ _ hne, clean_of_ne_nil _ (joinSep_cons_ne_nil _ _ hne),
    isRooted_joinSep_cons _ _ hne, isRooted_cleanOut r st h, splitSep_joinSep _ (by simp),
    elemsOf_cons, cleanRun_append, cleanRun_splitSep_cleanOut r r [] st h,
    cleanRun_reverse_self r st h]

theorem firstRelative_nil_cons (rest : List Str) :
    firstRelative ([] :: rest) = firstRelative rest := rfl

theorem firstRelative_cons (p : Str) (rest : List Str) (h : p ≠ []) :
    firstRelative (p :: rest) = !isRooted p := by
  cases p with
  | nil => exact absurd rfl h
  | cons c cs => rfl

/-- The path built by `makePath`: empty when every segment is empty, and otherwise the
cleaned path of all the elements, rooted as the first segment that is not empty. -/
theorem makePath_form (s : List Str) :
    (makePath s = [] ∧ ∀ e ∈ s, e = []) ∨
    (∃ r, (firstRelative s = true → r = false) ∧
      makePath s = cleanOut r (cleanRun r [] (elemsOf s))) := by
  induction s with
  | nil => exact Or.inl ⟨rfl, by simp⟩
  | cons p rest ih =>
    by_cases hp : p = []
    · subst hp
      have hmk : makePath ([] :: rest) = makePath rest := rfl
      rw [hmk, firstRelative_nil_cons]
      rcases ih with ⟨h1, h2⟩ | ⟨r, h1, h2⟩
      · exact Or.inl ⟨h1, by simpa using h2⟩
      · refine Or.inr ⟨r, h1, ?_⟩
        rw [h2, elemsOf_cons]
        rfl
    · refine Or.inr ⟨isRooted p, ?_, ?_⟩
      · rw [firstRelative_cons p rest hp]
        simp
      · rw [makePath_cons, join_nil_left p hp, clean_of_ne_nil p hp,
          foldl_join_cleanOut _ _ (stackOK_splitSep _ p), elemsOf_cons, cleanRun_append]

theorem elemsOf_all_nil (s : List Str) (h : ∀ e ∈ s, e = []) :
    ∀ e ∈ elemsOf s, e = [] ∨ e = dot := by
  intro e he
  simp only [elemsOf, List.mem_flatMap] at he
  obtain ⟨p, hp, hep⟩ := he
  rw [h p hp] at hep
  simp only [splitSep, List.mem_singleton] at hep
  exact Or.inl hep

/-- The elements of the path built from segments whose first non-empty one is relative,
processed on top of any stack, act as the elements of the segments themselves. -/
theorem cleanRun_makePath (s : List Str) (h : firstRelative s = true) (r : Bool)
    (T : List Str) : cleanRun r T (splitSep (makePath s)) = cleanRun r T (elemsOf s) := by
  rcases makePath_form s with ⟨h1, h2⟩ | ⟨r0, h1, h2⟩
  · rw [h1, cleanRun_skips r T _ (elemsOf_all_nil s h2)]
    rfl
  · have hr0 := h1 h
    subst hr0
    rw [h2, cleanRun_splitSep_cleanOut false r T _
        (stackOK_cleanRun false [] _ trivial (not_mem_of_mem_elemsOf s)),
      cleanRun_replay r T _ (not_mem_of_mem_elemsOf s)]

theorem join_eq_makePath (s : List Str) : join s = makePath s := by
  induction s with
  | nil => rfl
  | cons p rest ih =>
    by_cases hp : p = []
    · subst hp
      rw [join_nil_cons, ih]
      rfl
    · rw [makePath_cons, join_nil_left p hp, clean_of_ne_nil p hp,
        foldl_join_cleanOut _ _ (stackOK_splitSep _ p), join_cons_of_ne_nil p rest hp,
        clean_of_ne_nil _ (joinSep_cons_ne_nil p rest hp), isRooted_joinSep_cons p rest hp,
        splitSep_joinSep _ (by simp), elemsOf_cons, cleanRun_append]

theorem firstRelative_of_append (s1 s2 : List Str) (h : firstRelative (s1 ++ s2) = true) :
    firstRelative s1 = true := by
  induction s1 with
  | nil => rfl
  | cons p rest ih =>
    by_cases hp : p = []
    · subst hp
      rw [List.cons_append, firstRelative_nil_cons] at h
      rw [firstRelative_nil_cons]
      exact ih h
    · rw [List.cons_append, firstRelative_cons p _ hp] at h
      rw [firstRelative_cons p _ hp]
      exact h

/-- The path of `getPath` under a non-empty `gitdir`, for segments whose first non-empty
one is relative: the elements of `gitdir` and of the segments, cleaned together. -/
theorem getPath_of_ne_nil (repo : gitRepository) (s : List Str) (hg : repo.gitdir ≠ [])
    (h : firstRelative s = true) :
    getPath repo s = cleanOut (isRooted repo.gitdir)
      (cleanRun (isRooted repo.gitdir) [] (splitSep repo.gitdir ++ elemsOf s)) := by
  rw [getPath_eq, join_cons_of_ne_nil _ _ hg]
  have hj : joinSep [repo.gitdir, makePath s] = repo.gitdir ++ sep :: makePath s := rfl
  rw [hj, clean_of_ne_nil _ (by simp), isRooted_append _ _ hg, splitSep_append,
    cleanRun_append, cleanRun_makePath s h, ← cleanRun_append]

/-- The path of `getPath` under an empty `gitdir` is the path of `makePath`. -/
theorem getPath_of_nil (repo : gitRepository) (s : List Str) (hg : repo.gitdir = []) :
    getPath repo s = makePath s := by
  rw [getPath_eq, hg]
  rcases makePath_form s with ⟨h1, _⟩ | ⟨r, _, h2⟩
  · rw [h1]
    rfl
  · have hok := stackOK_cleanRun r [] _ trivial (not_mem_of_mem_elemsOf s)
    rw [h2, join_nil_left _ (cleanOut_ne_nil r _ hok), clean_cleanOut r _ hok]

/-- Segments appended to the arguments of `getPath` are segments joined onto its result,
when `gitdir` is empty or the first non-empty segment is relative. -/
theorem getPath_append_join (repo : gitRepository) (s1 s2 : List Str)
    (h : repo.gitdir = [] ∨ firstRelative (s1 ++ s2) = true) :
    getPath repo (s1 ++ s2) = join (getPath repo s1 :: s2) := by
  by_cases hg : repo.gitdir = []
  · rw [getPath_of_nil repo _ hg, getPath_of_nil repo _ hg, makePath_append]
    rcases makePath_form s1 with ⟨h1, _⟩ | ⟨r, _, h2⟩
    · rw [h1, join_nil_cons, join_eq_makePath]
      rfl
    · have hok := stackOK_cleanRun r [] _ trivial (not_mem_of_mem_elemsOf s1)
      rw [h2, foldl_join_cleanOut r _ hok, join_cleanOut_cons r _ hok]
  · have hrel := h.resolve_left hg
    have hok := stackOK_cleanRun (isRooted repo.gitdir) [] (splitSep repo.gitdir ++ elemsOf s1)
      trivial (by
        intro e he
        rcases List.mem_append.mp he with he | he
        · exact not_mem_of_mem_splitSep _ e he
        · exact not_mem_of_mem_elemsOf s1 e he)
    rw [getPath_of_ne_nil repo _ hg hrel,
      getPath_of_ne_nil repo _ hg (firstRelative_of_append s1 s2 hrel),
      join_cleanOut_cons _ _ hok, ← cleanRun_append, elemsOf_append, List.append_assoc]

theorem join_dotGit_clean (path : Str) : ∃ z, join [path, dotGit] = clean z := by
  by_cases hp : path = []
  · exact ⟨dotGit, by rw [hp]; rfl⟩
  · exact ⟨_, join_cons_of_ne_nil path [dotGit] hp⟩

/-- With no segments, `getPath` gives back a `gitdir` that is a cleaned path. -/
theorem getPath_nil_of_clean (repo : gitRepository) (z : Str) (h : repo.gitdir = clean z) :
    getPath repo [] = repo.gitdir := by
  obtain ⟨r, st, hst, hcl⟩ := clean_eq_cleanOut z
  have hm : makePath [] = [] := rfl
  rw [getPath_eq, h, hcl, hm, join_cleanOut_cons r st hst]
  rfl

/-! ### Rooted segments -/

/-- The path built by `makePath`, in the mode of its first non-empty segment. -/
theorem makePath_rooted (s : List Str) :
    (makePath s = [] ∧ ∀ e ∈ s, e = []) ∨
    makePath s = cleanOut (!firstRelative s) (cleanRun (!firstRelative s) [] (elemsOf s)) := by
  induction s with
  | nil => exact Or.inl ⟨rfl, by simp⟩
  | cons p rest ih =>
    by_cases hp : p = []
    · subst hp
      have hmk : makePath ([] :: rest) = makePath rest := rfl
      rw [hmk, firstRelative_nil_cons]
      rcases ih with ⟨h1, h2⟩ | h2
      · exact Or.inl ⟨h1, by simpa using h2⟩
      · refine Or.inr ?_
        rw [h2, elemsOf_cons]
        rfl
    · refine Or.inr ?_
      rw [firstRelative_cons p rest hp, Bool.not_not, makePath_cons, join_nil_left p hp,
        clean_of_ne_nil p hp, foldl_join_cleanOut _ _ (stackOK_splitSep _ p), elemsOf_cons,
        cleanRun_append]

/-- The path of `getPath` under a non-empty `gitdir`: the stack of the segments, built in
the mode of their first non-empty one, replayed on top of the stack of `gitdir`. -/
theorem getPath_general (repo : gitRepository) (s : List Str) (hg : repo.gitdir ≠ []) :
    getPath repo s = cleanOut (isRooted repo.gitdir)
      (cleanRun (isRooted repo.gitdir) (cleanRun (isRooted repo.gitdir) [] (splitSep repo.gitdir))
        (cleanRun (!firstRelative s) [] (elemsOf s)).reverse) := by
  rw [getPath_eq, join_cons_of_ne_nil _ _ hg]
  have hj : joinSep [repo.gitdir, makePath s] = repo.gitdir ++ sep :: makePath s := rfl
  rw [hj, clean_of_ne_nil _ (by simp), isRooted_append _ _ hg, splitSep_append, cleanRun_append]
  congr 1
  rcases makePath_rooted s with ⟨h1, h2⟩ | h2
  · rw [h1, cleanRun_skips _ [] _ (elemsOf_all_nil s h2)]
    rfl
  · rw [h2, cleanRun_splitSep_cleanOut _ _ _ _
      (stackOK_cleanRun _ [] _ trivial (not_mem_of_mem_elemsOf s))]

theorem stackOK_not_dotdot (st : List Str) (h : StackOK true st) : dotdot ∉ st := by
  induction st with
  | nil => simp
  | cons t rest ih =>
    obtain ⟨_, _, _, h4, h5⟩ := h
    intro hm
    rcases List.mem_cons.mp hm with ht | hm
    · exact absurd (h4 ht.symm).1 (by decide)
    · exact ih h5 hm

theorem stackOK_of_not_dotdot (r : Bool) (st : List Str) (h : StackOK r st)
    (hd : dotdot ∉ st) (r1 : Bool) : StackOK r1 st := by
  induction st with
  | nil => trivial
  | cons t rest ih =>
    obtain ⟨h1, h2, h3, _, h5⟩ := h
    exact ⟨h1, h2, h3, fun ht => absurd (by simp [ht]) hd,
      ih h5 (fun hm => hd (List.mem_cons_of_mem _ hm))⟩

/-- Replaying a stack grown from `X` as a relative path is replaying `X` and then
processing the elements. -/
theorem cleanRun_replay_from (r : Bool) (T X cs : List Str) (hX : StackOK false X)
    (hcs : ∀ e ∈ cs, sep ∉ e) :
    cleanRun r T (cleanRun false X cs).reverse = cleanRun r (cleanRun r T X.reverse) cs := by
  induction cs using List.reverseRecOn with
  | nil => rfl
  | append_singleton cs c ih =>
    have hcs1 : ∀ e ∈ cs, sep ∉ e := fun e he => hcs e (by simp [he])
    have ih := ih hcs1
    have hok := stackOK_cleanRun false X cs hX hcs1
    rw [cleanRun_snoc, cleanRun_snoc, ← ih]
    generalize cleanRun false X cs = S at hok ⊢
    by_cases hs : c = [] ∨ c = dot
    · rw [cleanStep_skip false S c hs, cleanStep_skip r _ c hs]
    · have h1 : c ≠ [] := fun h => hs (Or.inl h)
      have h2 : c ≠ dot := fun h => hs (Or.inr h)
      by_cases hd : c = dotdot
      · subst hd
        cases S with
        | nil => rfl
        | cons t rest =>
          by_cases ht : t = dotdot
          · subst ht
            have : cleanStep false (dotdot :: rest) dotdot = dotdot :: dotdot :: rest := by
              simp [cleanStep, dotdot, dot]
            rw [this, List.reverse_cons, cleanRun_snoc]
          · have : cleanStep false (t :: rest) dotdot = rest := by
              simp [cleanStep, dotdot, dot] at ht ⊢
              simp [ht]
            rw [this, List.reverse_cons, cleanRun_snoc]
            obtain ⟨_, t2, t3, _, _⟩ := hok
            rw [cleanStep_name r _ t t2 t3 ht]
            simp [cleanStep, dotdot, dot] at ht ⊢
            simp [ht]
      · rw [cleanStep_name false S c h1 h2 hd, List.reverse_cons, cleanRun_snoc]

theorem stripDots_of_not_mem (st : List Str) (h : dotdot ∉ st) : stripDots st = st := by
  unfold stripDots
  rw [List.filter_eq_self]
  intro x hx
  simp only [bne_iff_ne, ne_eq]
  intro hxd
  exact h (hxd ▸ hx)

theorem stripDots_of_all (st : List Str) (h : ∀ x ∈ st, x = dotdot) : stripDots st = [] := by
  unfold stripDots
  rw [List.filter_eq_nil_iff]
  intro x hx
  simp [h x hx]

theorem stripDots_cons_name (t : Str) (rest : List Str) (h : t ≠ dotdot) :
    stripDots (t :: rest) = t :: stripDots rest := by
  simp [stripDots, List.filter_cons, h]

theorem stripDots_cons_dotdot (rest : List Str) :
    stripDots (dotdot :: rest) = stripDots rest := by
  simp [stripDots, List.filter_cons]

theorem cleanStep_dotdot_name (r : Bool) (t : Str) (rest : List Str) (h : t ≠ dotdot) :
    cleanStep r (t :: rest) dotdot = rest := by
  simp [cleanStep, dotdot, dot] at h ⊢
  simp [h]

theorem cleanStep_dotdot_nil (r : Bool) :
    cleanStep r [] dotdot = if r then [] else [dotdot] := by
  simp [cleanStep, dotdot, dot]

theorem cleanStep_dotdot_dotdot (rest : List Str) :
    cleanStep false (dotdot :: rest) dotdot = dotdot :: dotdot :: rest := by
  simp [cleanStep, dotdot, dot]

/-- A rooted path is processed as a relative one, the `..` elements that climb above the
root left out. -/
theorem cleanStep_strip (X : List Str) (e : Str) (hX : StackOK false X) :
    cleanStep true (stripDots X) e = stripDots (cleanStep false X e) := by
  by_cases hs : e = [] ∨ e = dot
  · rw [cleanStep_skip _ _ _ hs, cleanStep_skip _ _ _ hs]
  · have h1 : e ≠ [] := fun h => hs (Or.inl h)
    have h2 : e ≠ dot := fun h => hs (Or.inr h)
    by_cases hd : e = dotdot
    · subst hd
      cases X with
      | nil => rfl
      | cons t rest =>
        by_cases ht : t = dotdot
        · subst ht
          obtain ⟨_, _, _, h4, _⟩ := hX
          have hall := (h4 rfl).2
          rw [cleanStep_dotdot_dotdot, stripDots_cons_dotdot, stripDots_cons_dotdot,
            stripDots_cons_dotdot, stripDots_of_all rest hall]
          rfl
        · rw [stripDots_cons_name t rest ht, cleanStep_dotdot_name true t _ ht,
            cleanStep_dotdot_name false t _ ht]
    · rw [cleanStep_name _ _ _ h1 h2 hd, cleanStep_name _ _ _ h1 h2 hd,
        stripDots_cons_name e X hd]

theorem cleanRun_strip (X cs : List Str) (hX : StackOK false X) (hcs : ∀ e ∈ cs, sep ∉ e) :
    cleanRun true (stripDots X) cs = stripDots (cleanRun false X cs) := by
  induction cs generalizing X with
  | nil => rfl
  | cons e rest ih =>
    rw [cleanRun_cons, cleanRun_cons, cleanStep_strip X e hX]
    exact ih _ (stackOK_cleanStep false X e hX (hcs e (by simp)))
      (fun x hx => hcs x (List.mem_cons_of_mem _ hx))

/-- A well-formed stack is its names on top of its `..` elements. -/
theorem stack_split (U : List Str) (h : StackOK false U) : U = stripDots U ++ onlyDots U := by
  induction U with
  | nil => rfl
  | cons t rest ih =>
    obtain ⟨_, _, _, h4, h5⟩ := h
    by_cases ht : t = dotdot
    · subst ht
      have hall := (h4 rfl).2
      have h1 : stripDots (dotdot :: rest) = [] :=
        stripDots_of_all _ (by
          intro x hx
          rcases List.mem_cons.mp hx with rfl | hx
          · rfl
          · exact hall x hx)
      have h2 : onlyDots (dotdot :: rest) = dotdot :: rest := by
        unfold onlyDots
        rw [List.filter_eq_self]
        intro x hx
        rcases List.mem_cons.mp hx with rfl | hx
        · simp
        · simp [hall x hx]
      rw [h1, h2]
      rfl
    · have h1 : onlyDots (t :: rest) = onlyDots rest := by
        simp [onlyDots, List.filter_cons, ht]
      rw [stripDots_cons_name t rest ht, h1, List.cons_append, ← ih h5]

theorem onlyDots_all (U : List Str) : ∀ x ∈ onlyDots U, x = dotdot := by
  intro x hx
  simp only [onlyDots, List.mem_filter, beq_iff_eq] at hx
  exact hx.2

theorem onlyDots_ne_nil (U : List Str) (h : dotdot ∈ U) : onlyDots U ≠ [] := by
  intro hnil
  have : dotdot ∈ onlyDots U := by
    simp only [onlyDots, List.mem_filter, beq_self_eq_true, and_true]
    exact h
  rw [hnil] at this
  simp at this

/-- Names processed on top of a stack are pushed onto it. -/
theorem cleanRun_names (r : Bool) (T Y : List Str)
    (h : ∀ y ∈ Y, y ≠ [] ∧ y ≠ dot ∧ y ≠ dotdot) : cleanRun r T Y.reverse = Y ++ T := by
  induction Y with
  | nil => rfl
  | cons y rest ih =>
    have hy := h y (by simp)
    rw [List.reverse_cons, cleanRun_snoc, ih (fun x hx => h x (List.mem_cons_of_mem _ hx)),
      cleanStep_name r _ y hy.1 hy.2.1 hy.2.2]
    rfl

theorem stripDots_names (U : List Str) (h : StackOK false U) :
    ∀ y ∈ stripDots U, y ≠ [] ∧ y ≠ dot ∧ y ≠ dotdot := by
  intro y hy
  simp only [stripDots, List.mem_filter, bne_iff_ne, ne_eq] at hy
  have := stackOK_mem false U h y hy.1
  exact ⟨this.2.1, this.2.2, hy.2⟩

/-- In a rooted path, `..` elements drop as many names from the top of the stack. -/
theorem cleanRun_dots_rooted (T ds : List Str) (hT : StackOK true T)
    (hds : ∀ d ∈ ds, d = dotdot) : cleanRun true T ds = T.drop ds.length := by
  induction ds generalizing T with
  | nil => rfl
  | cons d rest ih =>
    have hd : d = dotdot := hds d (by simp)
    subst hd
    rw [cleanRun_cons]
    cases T with
    | nil =>
      rw [cleanStep_dotdot_nil, if_pos rfl, ih [] trivial
        (fun x hx => hds x (List.mem_cons_of_mem _ hx))]
      simp
    | cons t rest1 =>
      have ht : t ≠ dotdot := fun ht => stackOK_not_dotdot _ hT (by simp [ht])
      rw [cleanStep_dotdot_name true t _ ht, ih rest1 hT.2.2.2.2
        (fun x hx => hds x (List.mem_cons_of_mem _ hx))]
      rfl

theorem balance_cons_name (t : Str) (rest : List Str) (h : t ≠ dotdot) :
    balance (t :: rest) = balance rest + 1 := by
  have h1 : onlyDots (t :: rest) = onlyDots rest := by
    simp [onlyDots, List.filter_cons, h]
  unfold balance
  rw [stripDots_cons_name t rest h, h1]
  simp only [List.length_cons]
  push_cast
  ring

theorem balance_cons_dotdot (rest : List Str) :
    balance (dotdot :: rest) = balance rest - 1 := by
  have h1 : onlyDots (dotdot :: rest) = dotdot :: onlyDots rest := by
    simp [onlyDots, List.filter_cons]
  unfold balance
  rw [stripDots_cons_dotdot, h1]
  simp only [List.length_cons]
  push_cast
  ring

/-- In a relative path, every `..` lowers the balance of the stack by one. -/
theorem balance_cleanStep_dotdot (T : List Str) :
    balance (cleanStep false T dotdot) = balance T - 1 := by
  cases T with
  | nil =>
    rw [cleanStep_dotdot_nil]
    simp only [Bool.false_eq_true, if_false]
    rw [balance_cons_dotdot]
  | cons t rest =>
    by_cases ht : t = dotdot
    · subst ht
      rw [cleanStep_dotdot_dotdot, balance_cons_dotdot]
    · rw [cleanStep_dotdot_name false t _ ht, balance_cons_name t rest ht]
      ring

theorem balance_cleanRun_dots (T ds : List Str) (hds : ∀ d ∈ ds, d = dotdot) :
    balance (cleanRun false T ds) = balance T - ds.length := by
  induction ds generalizing T with
  | nil => simp [cleanRun_nil]
  | cons d rest ih =>
    have hd : d = dotdot := hds d (by simp)
    subst hd
    rw [cleanRun_cons, ih _ (fun x hx => hds x (List.mem_cons_of_mem _ hx)),
      balance_cleanStep_dotdot]
    simp only [List.length_cons]
    push_cast
    ring

/-- Some `..` elements processed on top of a stack change it, unless it is the empty stack
of a rooted path. -/
theorem cleanRun_dots_ne (r : Bool) (T ds : List Str) (hT : StackOK r T) (hne : ds ≠ [])
    (hds : ∀ d ∈ ds, d = dotdot) (h : ¬ (r = true ∧ T = [])) : cleanRun r T ds ≠ T := by
  intro heq
  have hlen : 0 < ds.length := List.length_pos.mpr hne
  cases r
  · have := balance_cleanRun_dots T ds hds
    rw [heq] at this
    omega
  · have hTne : T ≠ [] := fun hT0 => h ⟨rfl, hT0⟩
    have := cleanRun_dots_rooted T ds hT hds
    rw [heq] at this
    have hl := congrArg List.length this
    rw [List.length_drop] at hl
    have : 0 < T.length := List.length_pos.mpr hTne
    omega

/-- The text of a cleaned path determines its stack. -/
theorem cleanOut_inj (r : Bool) (A B : List Str) (hA : StackOK r A) (hB : StackOK r B)
    (h : cleanOut r A = cleanOut r B) : A = B := by
  have h1 := cleanRun_splitSep_cleanOut r r [] A hA
  have h2 := cleanRun_splitSep_cleanOut r r [] B hB
  rw [cleanRun_reverse_self r A hA] at h1
  rw [cleanRun_reverse_self r B hB] at h2
  rw [← h1, ← h2, h]

theorem firstRelative_all_nil (s1 s2 : List Str) (h1 : firstRelative s1 = true)
    (h2 : firstRelative (s1 ++ s2) = false) : ∀ e ∈ s1, e = [] := by
  induction s1 with
  | nil => simp
  | cons p rest ih =>
    by_cases hp : p = []
    · subst hp
      rw [List.cons_append, firstRelative_nil_cons] at h2
      rw [firstRelative_nil_cons] at h1
      intro e he
      rcases List.mem_cons.mp he with rfl | he
      · rfl
      · exact ih h1 h2 e he
    · rw [List.cons_append, firstRelative_cons p _ hp] at h2
      rw [firstRelative_cons p _ hp] at h1
      rw [h1] at h2
      exact absurd h2 (by simp)

/-- The stack of the segments `s1`, when a later segment is the first rooted one or `s1`
itself holds it, is their stack as a rooted path. -/
theorem cleanRun_first_rooted (s1 s2 : List Str) (h : firstRelative (s1 ++ s2) = false) :
    cleanRun (!firstRelative s1) [] (elemsOf s1) = cleanRun true [] (elemsOf s1) := by
  cases h1 : firstRelative s1
  · rfl
  · have hall := elemsOf_all_nil s1 (firstRelative_all_nil s1 s2 h1 h)
    rw [cleanRun_skips _ [] _ hall, cleanRun_skips _ [] _ hall]

/-- Under a non-empty `gitdir`, with a rooted first segment: appending segments to the
arguments of `getPath` is joining them onto its result exactly when `gitdir` cleans to the
root or no `..` of the appended segments climbs above the root of the rooted path. -/
theorem getPath_append_rooted (repo : gitRepository) (s1 s2 : List Str)
    (hg : repo.gitdir ≠ []) (hrel : firstRelative (s1 ++ s2) = false) :
    getPath repo (s1 ++ s2) = join (getPath repo s1 :: s2) ↔
      (clean repo.gitdir = [sep] ∨ climbsAbove s1 s2 = false) := by
  -- the stacks involved
  have hSg := stackOK_splitSep (isRooted repo.gitdir) repo.gitdir
  have hX1 : StackOK true (cleanRun true [] (elemsOf s1)) :=
    stackOK_cleanRun true [] _ trivial (not_mem_of_mem_elemsOf s1)
  have hX1f : StackOK false (cleanRun true [] (elemsOf s1)) :=
    stackOK_of_not_dotdot true _ hX1 (stackOK_not_dotdot _ hX1) false
  have hU : StackOK false (cleanRun false (cleanRun true [] (elemsOf s1)) (elemsOf s2)) :=
    stackOK_cleanRun false _ _ hX1f (not_mem_of_mem_elemsOf s2)
  have hmemrev : ∀ (r : Bool) (st : List Str), StackOK r st → ∀ e ∈ st.reverse, sep ∉ e :=
    fun r st hst e he => (stackOK_mem r st hst e (List.mem_reverse.mp he)).1
  -- both sides as cleaned paths
  have hL : getPath repo (s1 ++ s2) = cleanOut (isRooted repo.gitdir)
      (cleanRun (isRooted repo.gitdir) (cleanRun (isRooted repo.gitdir) [] (splitSep repo.gitdir))
        (stripDots (cleanRun false (cleanRun true [] (elemsOf s1)) (elemsOf s2))).reverse) := by
    rw [getPath_general repo _ hg, hrel, Bool.not_false, elemsOf_append, cleanRun_append,
      ← cleanRun_strip _ _ hX1f (not_mem_of_mem_elemsOf s2),
      stripDots_of_not_mem _ (stackOK_not_dotdot _ hX1)]
  have hS1 : StackOK (isRooted repo.gitdir)
      (cleanRun (isRooted repo.gitdir) (cleanRun (isRooted repo.gitdir) [] (splitSep repo.gitdir))
        (cleanRun true [] (elemsOf s1)).reverse) :=
    stackOK_cleanRun _ _ _ hSg (hmemrev true _ hX1)
  have hR : join (getPath repo s1 :: s2) = cleanOut (isRooted repo.gitdir)
      (cleanRun (isRooted repo.gitdir) (cleanRun (isRooted repo.gitdir) [] (splitSep repo.gitdir))
        (cleanRun false (cleanRun true [] (elemsOf s1)) (elemsOf s2)).reverse) := by
    rw [getPath_general repo _ hg, cleanRun_first_rooted s1 s2 hrel,
      join_cleanOut_cons _ _ hS1,
      cleanRun_replay_from _ _ _ _ hX1f (not_mem_of_mem_elemsOf s2)]
  rw [hL, hR]
  have hclimb : climbsAbove s1 s2
      = (cleanRun false (cleanRun true [] (elemsOf s1)) (elemsOf s2)).contains dotdot := rfl
  rw [hclimb, clean_of_ne_nil _ hg]
  generalize cleanRun false (cleanRun true [] (elemsOf s1)) (elemsOf s2) = U at hU ⊢
  generalize hSgdef : cleanRun (isRooted repo.gitdir) [] (splitSep repo.gitdir) = Sg at hSg ⊢
  generalize isRooted repo.gitdir = rg at hSg ⊢
  -- the two stacks: the names of `U` on top of `Sg`, with and without the `..` of `U`
  have hnames := stripDots_names U hU
  have hdots := onlyDots_all U
  have hdotsrev : ∀ d ∈ (onlyDots U).reverse, d = dotdot :=
    fun d hd => hdots d (List.mem_reverse.mp hd)
  have hA : cleanRun rg Sg (stripDots U).reverse = stripDots U ++ Sg :=
    cleanRun_names rg Sg _ hnames
  have hB : cleanRun rg Sg U.reverse
      = stripDots U ++ cleanRun rg Sg (onlyDots U).reverse := by
    conv_lhs => rw [stack_split U hU]
    rw [List.reverse_append, cleanRun_append, cleanRun_names rg _ _ hnames]
  have hokB : StackOK rg (cleanRun rg Sg U.reverse) :=
    stackOK_cleanRun rg Sg _ hSg (hmemrev false U hU)
  have hokA : StackOK rg (cleanRun rg Sg (stripDots U).reverse) := by
    apply stackOK_cleanRun rg Sg _ hSg
    intro e he
    have he1 : e ∈ stripDots U := List.mem_reverse.mp he
    simp only [stripDots, List.mem_filter] at he1
    exact (stackOK_mem false U hU e he1.1).1
  constructor
  · intro h
    have hst := cleanOut_inj rg _ _ hokA hokB h
    rw [hA, hB] at hst
    have hpop : cleanRun rg Sg (onlyDots U).reverse = Sg := (List.append_cancel_left hst).symm
    by_cases hc : dotdot ∈ U
    · left
      have hne : (onlyDots U).reverse ≠ [] := by
        simpa using onlyDots_ne_nil U hc
      have hroot : rg = true ∧ Sg = [] := by
        by_contra hcon
        exact cleanRun_dots_ne rg Sg _ hSg hne hdotsrev hcon hpop
      rw [hroot.1, hroot.2]
      rfl
    · right
      simpa using hc
  · rintro (h | h)
    · have hrg : rg = true := by
        have := isRooted_cleanOut rg Sg hSg
        rw [h] at this
        exact this.symm
      subst hrg
      have hSg0 : Sg = [] := cleanOut_inj true Sg [] hSg trivial h
      subst hSg0
      rw [hA, hB, cleanRun_dots_rooted [] _ trivial hdotsrev]
      simp
    · have hc : dotdot ∉ U := by simpa using h
      rw [stripDots_of_not_mem U hc]

/-- Appending segments to the arguments of `getPath` is joining them onto its result
exactly when `gitdir` is empty, or the first non-empty segment is relative, or `gitdir`
cleans to the root, or no `..` of the appended segments climbs above the root of the rooted
path that the first segments form. -/
theorem getPath_append_iff (repo : gitRepository) (s1 s2 : List Str) :
    getPath repo (s1 ++ s2) = join (getPath repo s1 :: s2) ↔
      (repo.gitdir = [] ∨ firstRelative (s1 ++ s2) = true ∨ clean repo.gitdir = [sep] ∨
        climbsAbove s1 s2 = false) := by
  by_cases hg : repo.gitdir = []
  · exact ⟨fun _ => Or.inl hg, fun _ => getPath_append_join repo s1 s2 (Or.inl hg)⟩
  · cases hrel : firstRelative (s1 ++ s2)
    · rw [getPath_append_rooted repo s1 s2 hg hrel]
      constructor
      · intro h
        exact Or.inr (Or.inr h)
      · rintro (h | h | h)
        · exact absurd h hg
        · exact absurd h (by simp)
        · exact h
    · exact ⟨fun _ => Or.inr (Or.inl rfl),
        fun _ => getPath_append_join repo s1 s2 (Or.inr hrel)⟩


/-! ## Lemmas on the directory tree -/

theorem findChild_setChild_same (name : Str) (new : Node) (ch : List (Str × Node)) :
    findChild name (setChild name new ch) = some new := by
  induction ch with
  | nil => simp [setChild, findChild]
  | cons hd tl ih =>
    obtain ⟨n, m⟩ := hd
    by_cases h : n = name
    · simp [setChild, findChild, h]
    · simp [setChild, findChild, h, ih]

theorem findChild_setChild_other (name other : Str) (new : Node) (ch : List (Str × Node))
    (h : other ≠ name) : findChild other (setChild name new ch) = findChild other ch := by
  induction ch with
  | nil => simp [setChild, findChild, h.symm]
  | cons hd tl ih =>
    obtain ⟨n, m⟩ := hd
    by_cases hn : n = name
    · subst hn
      simp [setChild, findChild, h.symm]
    · by_cases ho : n = other
      · subst ho
        simp [setChild, findChild, h]
      · simp [setChild, findChild, hn, ho, ih]

theorem nodeAt_dir_cons (ch : List (Str × Node)) (name : Str) (k : List Str) :
    nodeAt (.dir ch) (name :: k) = (findChild name ch).bind (fun m => nodeAt m k) := by
  simp only [nodeAt]
  cases findChild name ch <;> rfl

theorem nodeAt_append (n : Node) (k l : List Str) :
    nodeAt n (k ++ l) = (nodeAt n k).bind (fun m => nodeAt m l) := by
  induction k generalizing n with
  | nil => simp [nodeAt]
  | cons name k ih =>
    cases n with
    | file c => simp [nodeAt]
    | dir ch =>
      simp only [List.cons_append, nodeAt_dir_cons]
      cases findChild name ch with
      | none => rfl
      | some m => simpa using ih m

theorem nodeAt_snoc_dir (root : Node) (cur : List Str) (ch : List (Str × Node)) (e : Str)
    (h : nodeAt root cur = some (.dir ch)) : nodeAt root (cur ++ [e]) = findChild e ch := by
  rw [nodeAt_append, h]
  simp only [Option.bind, nodeAt_dir_cons]
  cases findChild e ch <;> simp [nodeAt]

theorem Extends.refl (r : Node) : Extends r r := fun _ n h => ⟨n, h, rfl⟩

theorem Extends.trans {r r1 r2 : Node} (h1 : Extends r r1) (h2 : Extends r1 r2) :
    Extends r r2 := by
  intro k n h
  obtain ⟨n1, hn1, hd1⟩ := h1 k n h
  obtain ⟨n2, hn2, hd2⟩ := h2 k n1 hn1
  exact ⟨n2, hn2, hd2.trans hd1⟩

theorem Node.isDir_eq_true {n : Node} (h : n.isDir = true) : ∃ ch, n = .dir ch := by
  cases n with
  | file c => simp [Node.isDir] at h
  | dir ch => exact ⟨ch, rfl⟩

theorem Extends.dir {r r1 : Node} (h : Extends r r1) {k : List Str} {ch : List (Str × Node)}
    (hk : nodeAt r k = some (.dir ch)) : ∃ ch1, nodeAt r1 k = some (.dir ch1) := by
  obtain ⟨n1, hn1, hd⟩ := h k _ hk
  obtain ⟨ch1, rfl⟩ := @Node.isDir_eq_true n1 (by simpa [Node.isDir] using hd)
  exact ⟨ch1, hn1⟩

theorem nodeAt_putAt_new (new root : Node) (cur : List Str) (ch : List (Str × Node)) (e : Str)
    (hcur : nodeAt root cur = some (.dir ch)) (he : findChild e ch = none) :
    nodeAt (putAt new root (cur ++ [e])) (cur ++ [e]) = some new := by
  induction cur generalizing root with
  | nil =>
    simp only [nodeAt, Option.some.injEq] at hcur
    subst hcur
    simp [putAt, he, nodeAt_dir_cons, findChild_setChild_same, nodeAt]
  | cons c cur ih =>
    cases root with
    | file x => simp [nodeAt] at hcur
    | dir ch0 =>
      rw [nodeAt_dir_cons] at hcur
      cases hc : findChild c ch0 with
      | none => simp [hc] at hcur
      | some m0 =>
        simp only [hc, Option.bind] at hcur
        simp only [List.cons_append, putAt, hc, nodeAt_dir_cons, findChild_setChild_same,
          Option.bind]
        exact ih m0 hcur

theorem extends_putAt_new (new root : Node) (cur : List Str) (ch : List (Str × Node)) (e : Str)
    (hcur : nodeAt root cur = some (.dir ch)) (he : findChild e ch = none) :
    Extends root (putAt new root (cur ++ [e])) := by
  induction cur generalizing root with
  | nil =>
    simp only [nodeAt, Option.some.injEq] at hcur
    subst hcur
    intro k n hk
    cases k with
    | nil =>
      simp only [nodeAt, Option.some.injEq] at hk
      subst hk
      exact ⟨.dir (setChild e new ch), by simp [putAt, he, nodeAt], rfl⟩
    | cons name k =>
      rw [nodeAt_dir_cons] at hk
      have hne : name ≠ e := by
        intro h
        subst h
        simp [he] at hk
      refine ⟨n, ?_, rfl⟩
      simp only [List.nil_append, putAt, he, if_true, nodeAt_dir_cons]
      rw [findChild_setChild_other _ _ _ _ hne]
      exact hk
  | cons c cur ih =>
    cases root with
    | file x => simp [nodeAt] at hcur
    | dir ch0 =>
      rw [nodeAt_dir_cons] at hcur
      cases hc : findChild c ch0 with
      | none => simp [hc] at hcur
      | some m0 =>
        simp only [hc, Option.bind] at hcur
        intro k n hk
        simp only [List.cons_append, putAt, hc]
        cases k with
        | nil =>
          simp only [nodeAt, Option.some.injEq] at hk
          subst hk
          exact ⟨.dir (setChild c (putAt new m0 (cur ++ [e])) ch0), by simp [nodeAt], rfl⟩
        | cons name k =>
          rw [nodeAt_dir_cons] at hk
          rw [nodeAt_dir_cons]
          by_cases hname : name = c
          · subst hname
            simp only [hc, Option.bind] at hk
            simp only [findChild_setChild_same, Option.bind]
            exact ih m0 hcur k n hk
          · rw [findChild_setChild_other _ _ _ _ hname]
            exact ⟨n, hk, rfl⟩

theorem walk_nil_dir (deny : Access → List Str → Bool) (r : Node) (cur : List Str)
    (ch : List (Str × Node)) (h : nodeAt r cur = some (.dir ch)) :
    walk deny r cur [] = .found cur (.dir ch) := by
  simp [walk, h]

theorem allDirs_cons (deny : Access → List Str → Bool) (r : Node) (cur cur1 : List Str)
    (ch : List (Str × Node)) (e : Str) (rest : List Str) (hcur : nodeAt r cur = some (.dir ch))
    (hstep : ∀ cs, walk deny r cur (e :: cs) = walk deny r cur1 cs)
    (h : AllDirs deny r cur1 rest) : AllDirs deny r cur (e :: rest) := by
  intro cs hcs
  rcases List.prefix_cons_iff.mp hcs with rfl | ⟨t, rfl, ht⟩
  · exact ⟨cur, ch, walk_nil_dir deny r cur ch hcur⟩
  · rw [hstep]
    exact h t ht

/-- When the walk of `os.MkdirAll` reports success, every prefix of the elements leads to a
directory afterwards, and nothing that was there is lost. -/
theorem mkWalk_ok (deny : Access → List Str → Bool) (root : Node) (cur es : List Str)
    (hok : (mkWalk deny root cur es).2 = true) :
    Extends root (mkWalk deny root cur es).1 ∧ AllDirs deny (mkWalk deny root cur es).1 cur es := by
  induction es generalizing root cur with
  | nil =>
    cases hcur : nodeAt root cur with
    | none => simp [mkWalk, hcur] at hok
    | some n =>
      cases n with
      | file c => simp [mkWalk, hcur] at hok
      | dir ch =>
        refine ⟨by simpa [mkWalk, hcur] using Extends.refl root, ?_⟩
        intro cs hcs
        have : cs = [] := by simpa using hcs
        subst this
        exact ⟨cur, ch, by simp [mkWalk, hcur, walk]⟩
  | cons e rest ih =>
    cases hcur : nodeAt root cur with
    | none => simp [mkWalk, hcur] at hok
    | some n =>
      cases n with
      | file c => simp [mkWalk, hcur] at hok
      | dir ch =>
        by_cases he : e = []
        · have hmk : mkWalk deny root cur (e :: rest) = mkWalk deny root cur rest := by
            simp [mkWalk, hcur, he]
          rw [hmk] at hok ⊢
          obtain ⟨hext, hall⟩ := ih root cur hok
          obtain ⟨ch1, hch1⟩ := hext.dir hcur
          exact ⟨hext, allDirs_cons deny _ cur cur ch1 e rest hch1
            (fun cs => by simp [walk, hch1, he]) hall⟩
        · by_cases hs : deny .search cur = true
          · simp [mkWalk, hcur, he, hs] at hok
          · by_cases hd : e = dot
            · have hmk : mkWalk deny root cur (e :: rest) = mkWalk deny root cur rest := by
                simp [mkWalk, hcur, he, hs, hd]
              rw [hmk] at hok ⊢
              obtain ⟨hext, hall⟩ := ih root cur hok
              obtain ⟨ch1, hch1⟩ := hext.dir hcur
              exact ⟨hext, allDirs_cons deny _ cur cur ch1 e rest hch1
                (fun cs => by simp [walk, hch1, he, hs, hd]) hall⟩
            · by_cases hdd : e = dotdot
              · subst hdd
                have hmk : mkWalk deny root cur (dotdot :: rest)
                    = mkWalk deny root cur.dropLast rest := by
                  simp [mkWalk, hcur, he, hs, hd]
                rw [hmk] at hok ⊢
                obtain ⟨hext, hall⟩ := ih root cur.dropLast hok
                obtain ⟨ch1, hch1⟩ := hext.dir hcur
                exact ⟨hext, allDirs_cons deny _ cur cur.dropLast ch1 dotdot rest hch1
                  (fun cs => by simp [walk, hch1, he, hs, hd]) hall⟩
              · by_cases hlen : nameMax < byteLen e
                · simp [mkWalk, hcur, he, hs, hd, hdd, hlen] at hok
                · cases hm : findChild e ch with
                  | some m =>
                    have hmk : mkWalk deny root cur (e :: rest)
                        = mkWalk deny root (cur ++ [e]) rest := by
                      simp [mkWalk, hcur, he, hs, hd, hdd, hlen, hm]
                    rw [hmk] at hok ⊢
                    obtain ⟨hext, hall⟩ := ih root (cur ++ [e]) hok
                    obtain ⟨ch1, hch1⟩ := hext.dir hcur
                    obtain ⟨n1, hn1, _⟩ := hext (cur ++ [e]) m (by
                      rw [nodeAt_snoc_dir root cur ch e hcur, hm])
                    have hfind : findChild e ch1 = some n1 := by
                      rw [← nodeAt_snoc_dir _ cur ch1 e hch1, hn1]
                    exact ⟨hext, allDirs_cons deny _ cur (cur ++ [e]) ch1 e rest hch1
                      (fun cs => by simp [walk, hch1, he, hs, hd, hdd, hlen, hfind]) hall⟩
                  | none =>
                    by_cases hw : deny .write cur = true
                    · simp [mkWalk, hcur, he, hs, hd, hdd, hlen, hm, hw] at hok
                    · have hmk : mkWalk deny root cur (e :: rest)
                          = mkWalk deny (putAt (.dir []) root (cur ++ [e])) (cur ++ [e]) rest := by
                        simp [mkWalk, hcur, he, hs, hd, hdd, hlen, hm, hw]
                      rw [hmk] at hok ⊢
                      have hnew := nodeAt_putAt_new (.dir []) root cur ch e hcur hm
                      have hext1 := extends_putAt_new (.dir []) root cur ch e hcur hm
                      obtain ⟨hext, hall⟩ := ih _ (cur ++ [e]) hok
                      obtain ⟨ch1, hch1⟩ := (hext1.trans hext).dir hcur
                      obtain ⟨ch2, hch2⟩ := hext.dir hnew
                      have hfind : findChild e ch1 = some (.dir ch2) := by
                        rw [← nodeAt_snoc_dir _ cur ch1 e hch1, hch2]
                      exact ⟨hext1.trans hext, allDirs_cons deny _ cur (cur ++ [e]) ch1 e rest hch1
                        (fun cs => by simp [walk, hch1, he, hs, hd, hdd, hlen, hfind]) hall⟩

theorem Resolved.isDir_iff (r : Resolved) : r.isDir = true ↔ ∃ loc ch, r = .found loc (.dir ch) := by
  constructor
  · intro h
    cases r with
    | found loc n =>
      cases n with
      | file c => exact Bool.noConfusion h
      | dir ch => exact ⟨loc, ch, rfl⟩
    | missing loc => exact Bool.noConfusion h
    | failed e => exact Bool.noConfusion h
  · rintro ⟨loc, ch, rfl⟩
    rfl

theorem dirsAlong_iff (fs : FS) (p : Str) :
    dirsAlong fs p = true ↔ AllDirs fs.denied fs.rootNode [] (absElems fs p) := by
  simp only [dirsAlong, List.all_eq_true, List.mem_inits, Resolved.isDir_iff, AllDirs]

/-- The model of `os.MkdirAll`, when the call succeeds: the path and all its ancestors are
directories afterwards, and nothing is lost. -/
theorem osMkdirAll_ok (fs : FS) (p : Str) (hok : (osMkdirAll fs p).2 = true) :
    dirsAlong (osMkdirAll fs p).1 p = true ∧
      osStat (osMkdirAll fs p).1 p = .ok { isDir := true } ∧
      Extends fs.rootNode (osMkdirAll fs p).1.rootNode := by
  cases hpe : pathError p with
  | some e => simp [osMkdirAll, hpe] at hok
  | none =>
    have hok1 : (mkWalk fs.denied fs.rootNode [] (absElems fs p)).2 = true := by
      simpa [osMkdirAll, hpe] using hok
    obtain ⟨hext, hall⟩ := mkWalk_ok fs.denied fs.rootNode [] (absElems fs p) hok1
    obtain ⟨ch1, hch1⟩ := @Extends.dir _ _ hext [] fs.root rfl
    simp only [nodeAt, Option.some.injEq] at hch1
    have hroot : (osMkdirAll fs p).1.rootNode
        = (mkWalk fs.denied fs.rootNode [] (absElems fs p)).1 := by
      rw [hch1]
      simp only [osMkdirAll, hpe, FS.rootNode]
      simp only [FS.rootNode] at hch1
      rw [hch1]
      rfl
    have helems : absElems (osMkdirAll fs p).1 p = absElems fs p := by
      simp [osMkdirAll, hpe, absElems]
    have hdeny : (osMkdirAll fs p).1.denied = fs.denied := by
      simp [osMkdirAll, hpe]
    refine ⟨?_, ?_, by rw [hroot]; exact hext⟩
    · rw [dirsAlong_iff, hroot, helems, hdeny]
      exact hall
    · obtain ⟨loc, ch, hw⟩ := hall (absElems fs p) (List.prefix_refl _)
      simp [osStat, resolve, hpe, hroot, helems, hdeny, hw, Node.isDir]

/-- One element of a resolution: either it moves to a place that does not depend on the
rest, from a searchable directory, or no resolution through it finds anything. -/
theorem walk_cons_cases (deny : Access → List Str → Bool) (root : Node) (cur : List Str)
    (x : Str) :
    (∃ cur1 ch, nodeAt root cur = some (.dir ch) ∧ (x ≠ [] → deny .search cur = false) ∧
      ∀ rest, walk deny root cur (x :: rest) = walk deny root cur1 rest) ∨
    (∀ rest loc n, walk deny root cur (x :: rest) ≠ .found loc n) := by
  cases hcur : nodeAt root cur with
  | none => exact Or.inr (fun rest loc n => by simp [walk, hcur])
  | some m =>
    cases m with
    | file c => exact Or.inr (fun rest loc n => by simp [walk, hcur])
    | dir ch =>
      by_cases he : x = []
      · exact Or.inl ⟨cur, ch, rfl, fun h => absurd he h, fun rest => by simp [walk, hcur, he]⟩
      · by_cases hs : deny .search cur = true
        · exact Or.inr (fun rest loc n => by simp [walk, hcur, he, hs])
        · have hs1 : deny .search cur = false := by simpa using hs
          by_cases hd : x = dot
          · exact Or.inl ⟨cur, ch, rfl, fun _ => hs1, fun rest => by simp [walk, hcur, he, hs, hd]⟩
          · by_cases hdd : x = dotdot
            · exact Or.inl ⟨cur.dropLast, ch, rfl, fun _ => hs1, fun rest => by
                subst hdd
                simp [walk, hcur, he, hs, hd]⟩
            · by_cases hlen : nameMax < byteLen x
              · exact Or.inr (fun rest loc n => by simp [walk, hcur, he, hs, hd, hdd, hlen])
              · cases hm : findChild x ch with
                | some m1 =>
                  exact Or.inl ⟨cur ++ [x], ch, rfl, fun _ => hs1, fun rest => by
                    simp [walk, hcur, he, hs, hd, hdd, hlen, hm]⟩
                | none =>
                  refine Or.inr (fun rest loc n => ?_)
                  simp only [walk, hcur, he, hs1, hd, hdd, hlen, hm, if_false, Bool.false_eq_true]
                  by_cases hr : rest = [] <;> simp [hr]

theorem walk_found_nodeAt (deny : Access → List Str → Bool) (root : Node) (cur es : List Str)
    (loc : List Str) (n : Node) (h : walk deny root cur es = .found loc n) :
    nodeAt root loc = some n := by
  induction es generalizing cur with
  | nil =>
    cases hcur : nodeAt root cur with
    | none => simp [walk, hcur] at h
    | some m =>
      simp only [walk, hcur, Resolved.found.injEq] at h
      obtain ⟨h1, h2⟩ := h
      subst h1 h2
      exact hcur
  | cons x rest ih =>
    rcases walk_cons_cases deny root cur x with ⟨cur1, _, _, _, hstep⟩ | hno
    · rw [hstep] at h
      exact ih cur1 h
    · exact absurd h (hno rest loc n)

/-- A path with one more element resolves only when the path itself resolves to a
directory, searchable when the element is not empty. -/
theorem walk_snoc_found (deny : Access → List Str → Bool) (root : Node) (cur es : List Str)
    (e : Str) (loc : List Str) (n : Node)
    (h : walk deny root cur (es ++ [e]) = .found loc n) :
    ∃ loc1 ch1, walk deny root cur es = .found loc1 (.dir ch1) ∧
      (e ≠ [] → deny .search loc1 = false) := by
  induction es generalizing cur with
  | nil =>
    rcases walk_cons_cases deny root cur e with ⟨cur1, ch, hcur, hs, _⟩ | hno
    · exact ⟨cur, ch, walk_nil_dir deny root cur ch hcur, hs⟩
    · exact absurd h (hno [] loc n)
  | cons x rest ih =>
    have hx : (x :: rest) ++ [e] = x :: (rest ++ [e]) := rfl
    rw [hx] at h
    rcases walk_cons_cases deny root cur x with ⟨cur1, _, _, _, hstep⟩ | hno
    · rw [hstep] at h ⊢
      exact ih cur1 h
    · exact absurd h (hno _ loc n)

/-- Resolution goes on from the place that a first part of the elements leads to. -/
theorem walk_append_found (deny : Access → List Str → Bool) (root : Node) (cur es more : List Str)
    (loc : List Str) (n : Node) (h : walk deny root cur es = .found loc n) :
    walk deny root cur (es ++ more) = walk deny root loc more := by
  induction es generalizing cur with
  | nil =>
    cases hcur : nodeAt root cur with
    | none => simp [walk, hcur] at h
    | some m =>
      simp only [walk, hcur, Resolved.found.injEq] at h
      rw [List.nil_append, h.1]
  | cons x rest ih =>
    have hx : (x :: rest) ++ more = x :: (rest ++ more) := rfl
    rw [hx]
    rcases walk_cons_cases deny root cur x with ⟨cur1, _, _, _, hstep⟩ | hno
    · rw [hstep] at h ⊢
      exact ih cur1 h
    · exact absurd h (hno rest loc n)

theorem byteLen_append (a b : Str) : byteLen (a ++ b) = byteLen a + byteLen b := by
  induction a with
  | nil => simp [byteLen]
  | cons c cs ih =>
    have h : (c :: cs) ++ b = c :: (cs ++ b) := rfl
    rw [h]
    simp only [byteLen, ih]
    omega

theorem pathError_prefix (a b : Str) (ha : a ≠ []) (h : pathError (a ++ b) = none) :
    pathError a = none := by
  unfold pathError at h ⊢
  have hab : a ++ b ≠ [] := by simp [ha]
  rw [if_neg hab] at h
  rw [if_neg ha]
  by_cases hnul : (a ++ b).contains (Char.ofNat 0) = true
  · rw [if_pos hnul] at h
    exact absurd h (by simp)
  · rw [if_neg hnul] at h
    have hnul1 : ¬ a.contains (Char.ofNat 0) = true := by
      intro ha0
      apply hnul
      rw [List.contains_iff_exists_mem_beq] at ha0 ⊢
      obtain ⟨c, hc, hb⟩ := ha0
      exact ⟨c, List.mem_append_left _ hc, hb⟩
    rw [if_neg hnul1]
    by_cases hlen : pathMax ≤ byteLen (a ++ b)
    · rw [if_pos hlen] at h
      exact absurd h (by simp)
    · rw [if_neg (by rw [byteLen_append] at hlen; omega)]

theorem joinSep_snoc (es : List Str) (e : Str) (h : es ≠ []) :
    joinSep (es ++ [e]) = joinSep es ++ sep :: e := by
  induction es with
  | nil => exact absurd rfl h
  | cons x rest ih =>
    cases rest with
    | nil => rfl
    | cons y rest1 =>
      have h1 : (x :: y :: rest1) ++ [e] = x :: ((y :: rest1) ++ [e]) := rfl
      have h2 : (y :: rest1) ++ [e] = y :: (rest1 ++ [e]) := rfl
      rw [h1]
      have := ih (by simp)
      rw [h2] at this ⊢
      simp only [joinSep, this, List.append_assoc, List.cons_append]

theorem cleanOut_cons (r : Bool) (st : List Str) (name : Str) (h : st ≠ []) :
    cleanOut r (name :: st) = cleanOut r st ++ sep :: name := by
  have hrev : st.reverse ≠ [] := by simpa using h
  unfold cleanOut
  cases r
  · simp only [Bool.false_eq_true, if_false, h, List.reverse_cons, joinSep_snoc _ _ hrev]
    simp
  · simp only [if_true, List.reverse_cons, joinSep_snoc _ _ hrev]
    rfl

/-- When a cleaned path with one more name exists, the cleaned path itself is an existing
directory. -/
theorem osStat_cleanOut_parent (fs : FS) (r : Bool) (st : List Str) (name : Str)
    (info : FileInfo) (hst : StackOK r st) (h1 : sep ∉ name) (h2 : name ≠ [])
    (h : osStat fs (cleanOut r (name :: st)) = .ok info) :
    osStat fs (cleanOut r st) = .ok { isDir := true } := by
  -- the resolution behind the successful `os.Stat`
  have hres : pathError (cleanOut r (name :: st)) = none ∧ ∃ loc n,
      walk fs.denied fs.rootNode [] (absElems fs (cleanOut r (name :: st))) = .found loc n := by
    unfold osStat resolve at h
    cases hpe : pathError (cleanOut r (name :: st)) with
    | some e => simp [hpe] at h
    | none =>
      refine ⟨rfl, ?_⟩
      simp only [hpe] at h
      cases hw : walk fs.denied fs.rootNode [] (absElems fs (cleanOut r (name :: st))) with
      | found loc n => exact ⟨loc, n, rfl⟩
      | missing loc => simp [hw] at h
      | failed e => simp [hw] at h
  obtain ⟨hpe, loc, n, hw⟩ := hres
  by_cases hnil : st = []
  · subst hnil
    cases r
    · -- the path `.` under the working directory
      have hcfg : cleanOut false [name] = name := by simp [cleanOut, joinSep]
      have hdot : cleanOut false [] = dot := rfl
      rw [hcfg] at hw
      have helems : absElems fs name = fs.cwd ++ [name] := by
        simp [absElems, isRooted_of_not_mem name h1, splitSep_of_not_mem name h1]
      rw [helems] at hw
      obtain ⟨loc1, ch1, hw1, hs⟩ := walk_snoc_found _ _ _ _ _ _ _ hw
      have hat := walk_found_nodeAt _ _ _ _ _ _ hw1
      have hw2 : walk fs.denied fs.rootNode [] (fs.cwd ++ [dot]) = .found loc1 (.dir ch1) := by
        rw [walk_append_found _ _ _ _ [dot] _ _ hw1]
        simp [walk, hat, hs h2, dot]
      have hed : absElems fs dot = fs.cwd ++ [dot] := rfl
      rw [hdot]
      simp [osStat, resolve, show pathError dot = none from rfl, hed, hw2, Node.isDir]
    · -- the root
      have hroot : cleanOut true [] = [sep] := rfl
      rw [hroot]
      simp [osStat, resolve, show pathError [sep] = none from rfl, absElems, isRooted, splitSep,
        walk, nodeAt, FS.rootNode, Node.isDir]
  · have hne := cleanOut_ne_nil r st hst
    rw [cleanOut_cons r st name hnil] at hw hpe
    have helems : absElems fs (cleanOut r st ++ sep :: name)
        = absElems fs (cleanOut r st) ++ [name] := by
      simp only [absElems, isRooted_append _ _ hne, splitSep_append,
        splitSep_of_not_mem name h1, List.append_assoc]
    rw [helems] at hw
    obtain ⟨loc1, ch1, hw1, _⟩ := walk_snoc_found _ _ _ _ _ _ _ hw
    simp [osStat, resolve, pathError_prefix _ _ hne hpe, hw1, Node.isDir]

/-! ## Lemmas on the program -/

theorem obtainDir_no_mkdir (repo : gitRepository) (fs : FS) (paths : List Str) :
    (obtainDir repo fs false paths).2 = fs := by
  simp only [obtainDir]
  split
  · split <;> rfl
  · simp

theorem obtainFile_no_mkdir (repo : gitRepository) (fs : FS) (paths : List Str) :
    (obtainFile repo fs false paths).2 = fs := by
  have hd := obtainDir_no_mkdir repo fs paths.dropLast
  simp only [obtainFile]
  split
  · rfl
  · rcases hob : obtainDir repo fs false paths.dropLast with ⟨⟨s, err⟩, fs1⟩
    rw [hob] at hd
    cases err <;> exact hd

theorem obtainFile_config (repo : gitRepository) (fs : FS) :
    obtainFile repo fs false ["config".toList] =
      (.ok (getPath repo ["config".toList], none), fs) ∨
    obtainFile repo fs false ["config".toList] = (.ok ([], some .notAFile), fs) := by
  have hd := obtainDir_no_mkdir repo fs (["config".toList].dropLast)
  simp only [obtainFile]
  rw [if_neg (by decide)]
  rcases hob : obtainDir repo fs false ["config".toList].dropLast with ⟨⟨s, err⟩, fs1⟩
  rw [hob] at hd
  simp only at hd
  subst hd
  cases err
  · exact Or.inl rfl
  · exact Or.inr rfl

theorem osStat_nil (fs : FS) : osStat fs [] = .error .ENOENT := by
  simp [osStat, resolve, pathError]

theorem obtainFile_config_of_dir (fs : FS) (path : Str)
    (hdir : osStat fs (join [path, dotGit]) = .ok { isDir := true }) :
    obtainFile (freshRepo path) fs false ["config".toList]
      = (.ok (configPathOf path, none), fs) := by
  obtain ⟨z, hz⟩ := join_dotGit_clean path
  have hnil : getPath (freshRepo path) [] = join [path, dotGit] :=
    getPath_nil_of_clean (freshRepo path) z hz
  have hob : obtainDir (freshRepo path) fs false [] = ((join [path, dotGit], none), fs) := by
    simp [obtainDir, hnil, hdir]
  have hdrop : ["config".toList].dropLast = ([] : List Str) := rfl
  simp only [obtainFile]
  rw [if_neg (by decide), hdrop, hob]
  rfl

/-- The path of the configuration file is the control directory, a cleaned path, with the
name `config` on top of its stack. -/
theorem configPathOf_form (path : Str) :
    ∃ r st, StackOK r st ∧ join [path, dotGit] = cleanOut r st ∧
      configPathOf path = cleanOut r ("config".toList :: st) := by
  obtain ⟨z, hz⟩ := join_dotGit_clean path
  obtain ⟨r, st, hst, hcl⟩ := clean_eq_cleanOut z
  refine ⟨r, st, hst, hz.trans hcl, ?_⟩
  have hmk : makePath ["config".toList] = "config".toList := by decide
  have hg : (freshRepo path).gitdir = cleanOut r st := hz.trans hcl
  have hel : elemsOf ["config".toList] = ["config".toList] := by decide
  unfold configPathOf
  rw [getPath_eq, hmk, hg, join_cleanOut_cons r st hst, hel, cleanRun_cons, cleanRun_nil,
    cleanStep_name r st _ (by decide) (by decide) (by decide)]

/-- When the configuration file exists, the control directory is a directory. -/
theorem osStat_gitdir_of_config (fs : FS) (path : Str) (info : FileInfo)
    (h : osStat fs (configPathOf path) = .ok info) :
    osStat fs (join [path, dotGit]) = .ok { isDir := true } := by
  obtain ⟨r, st, hst, hg, hc⟩ := configPathOf_form path
  rw [hc] at h
  rw [hg]
  exact osStat_cleanOut_parent fs r st _ info hst (by decide) (by decide) h

/-- Opening in force mode, case by case on the configuration file: when it exists and does
not load the call panics with the read error; when it exists and loads the handle holds
what was loaded; when it does not exist the handle holds no configuration.  The filesystem
is untouched throughout. -/
theorem newGitRepository_force_result (ini : IniCodec) (fs : FS) (path : Str) :
    (∀ info, osStat fs (configPathOf path) = .ok info →
      iniLoad ini fs (configPathOf path) = none →
      newGitRepository ini fs path true = (.error .configurationFileReadError, fs)) ∧
    (∀ info c, osStat fs (configPathOf path) = .ok info →
      iniLoad ini fs (configPathOf path) = some c →
      newGitRepository ini fs path true
        = (.ok { worktree := path, gitdir := join [path, dotGit], conf := some c }, fs)) ∧
    ((∀ info, osStat fs (configPathOf path) ≠ .ok info) →
      newGitRepository ini fs path true
        = (.ok { worktree := path, gitdir := join [path, dotGit], conf := none }, fs)) := by
  refine ⟨fun info hs hl => ?_, fun info c hs hl => ?_, fun hno => ?_⟩
  · have hfile := obtainFile_config_of_dir fs path (osStat_gitdir_of_config fs path info hs)
    unfold freshRepo at hfile
    unfold newGitRepository
    simp only [if_true, hfile]
    simp [hs, hl]
  · have hfile := obtainFile_config_of_dir fs path (osStat_gitdir_of_config fs path info hs)
    unfold freshRepo at hfile
    unfold newGitRepository
    simp only [if_true, hfile]
    simp [hs, hl]
  · unfold newGitRepository
    simp only [if_true]
    rcases obtainFile_config
      { worktree := path, gitdir := join [path, dotGit], conf := none } fs with h | h
    · rw [h]
      simp only [Bool.not_true, Bool.false_and, Bool.false_eq_true, if_false]
      cases hs : osStat fs (getPath
          { worktree := path, gitdir := join [path, dotGit], conf := none } ["config".toList]) with
      | error e => rfl
      | ok info => exact absurd hs (hno info)
    · rw [h]
      simp only [Bool.not_true, Bool.false_and, Bool.false_eq_true, if_false, osStat_nil]

theorem osStat_of_readDirNames (fs : FS) (p : Str) (names : List Str)
    (h : readDirNames fs p = .ok names) : osStat fs p = .ok { isDir := true } := by
  unfold readDirNames at h
  unfold osStat
  cases hr : resolve fs p with
  | found loc n =>
    cases n with
    | file c => simp [hr] at h
    | dir ch => rfl
  | missing loc => simp [hr] at h
  | failed e => simp [hr] at h


theorem newGitRepository_ok (ini : IniCodec) (fs : FS) (path : Str) (force : Bool)
    (repo : gitRepository) (fs1 : FS)
    (h : newGitRepository ini fs path force = (.ok repo, fs1)) :
    repo.worktree = path ∧ repo.gitdir = join [path, dotGit] := by
  unfold newGitRepository at h
  simp only at h
  repeat' split at h
  all_goals first
    | (simp only [Prod.mk.injEq, Except.ok.injEq] at h
       obtain ⟨h1, _⟩ := h
       subst h1
       exact ⟨rfl, rfl⟩)
    | (simp only [Prod.mk.injEq, reduceCtorEq, false_and] at h)


/-- A strict open whose `os.Stat` of the control directory fails panics on the nil
`FileInfo`, whatever the error. -/
theorem strict_open_stat_error (ini : IniCodec) (fs : FS) (path : Str) (e : Errno)
    (h : osStat fs (join [path, dotGit]) = .error e) :
    newGitRepository ini fs path false = (.error .nilDereference, fs) := by
  unfold newGitRepository
  simp [h]

/-- A strict open of a control directory without `config` reads the format version from a
nil configuration. -/
theorem strict_open_config_absent (ini : IniCodec) (fs : FS) (path : Str) (e : Errno)
    (hdir : osStat fs (join [path, dotGit]) = .ok { isDir := true })
    (hcfg : osStat fs (configPathOf path) = .error e) :
    newGitRepository ini fs path false = (.error .nilDereference, fs) := by
  have hfile := obtainFile_config_of_dir fs path hdir
  unfold freshRepo at hfile
  unfold newGitRepository
  simp only [hdir, hfile]
  simp [hcfg]

/-- A strict open succeeds only when section `conf` of the loaded configuration holds a
format version that reads as 0; section `core` plays no part. -/
theorem strict_open_reads_conf (ini : IniCodec) (fs : FS) (path : Str)
    (repo : gitRepository) (fs1 : FS)
    (h : newGitRepository ini fs path false = (.ok repo, fs1)) :
    ∃ c, iniLoad ini fs (configPathOf path) = some c ∧
      parseInt (sectionKey c "conf".toList "repositoryformatversion".toList).1 = some 0 := by
  cases hstat : osStat fs (join [path, dotGit]) with
  | error e =>
    rw [strict_open_stat_error ini fs path e hstat] at h
    simp at h
  | ok info =>
    obtain ⟨d⟩ := info
    cases d with
    | false =>
      unfold newGitRepository at h
      simp [hstat] at h
    | true =>
      have hfile := obtainFile_config_of_dir fs path hstat
      unfold freshRepo at hfile
      unfold newGitRepository at h
      simp only [hstat, hfile] at h
      cases hcfg : osStat fs (configPathOf path) with
      | error e => simp [hcfg] at h
      | ok info =>
        cases hl : iniLoad ini fs (configPathOf path) with
        | none => simp [hcfg, hl] at h
        | some c =>
          refine ⟨c, rfl, ?_⟩
          simp [hcfg, hl] at h
          split at h
          · rename_i ver hver
            by_cases hv : ver = 0
            · subst hv
              exact hver
            · simp [hv] at h
          · simp at h


/-! ## The claims -/

/-- C1, on the code: `/a` does not exist on the empty filesystem, `gitInit` runs to
completion and writes format version 0 in section `core`, and the strict open that follows
panics with "unsupported repositoryformatversion": it reads section `conf`. -/
theorem strict_open_after_gitInit :
    osStat emptyFS "/a".toList = .error .ENOENT ∧
    (gitInit plainIni emptyFS "/a".toList).1 = .ok () ∧
    (iniLoad plainIni initialisedFS "/a/.git/config".toList).map
        (fun c => (sectionKey c "core".toList "repositoryformatversion".toList).1)
      = some "0".toList ∧
    (newGitRepository plainIni initialisedFS "/a".toList false).1
      = .error .unsupportedRepositoryFormatVersion :=
  ⟨rfl, rfl, rfl, rfl⟩

/-- C2, on the code: `/branches/a` does not exist, `gitInit` runs to completion, and the
directory `branches` of the control directory is not empty: it holds `a`, created by the
call `obtainDir(repo, true, path)`. -/
theorem gitInit_branches_not_empty :
    osStat branchesFS "/branches/a".toList = .error .ENOENT ∧
    (gitInit plainIni branchesFS "/branches/a".toList).1 = .ok () ∧
    readDirNames (gitInit plainIni branchesFS "/branches/a".toList).2
        "/branches/a/.git/branches".toList
      = .ok ["a".toList] ∧
    osStat (gitInit plainIni branchesFS "/branches/a".toList).2
        "/branches/a/.git/branches/a".toList
      = .ok { isDir := true } :=
  ⟨rfl, rfl, rfl, rfl⟩

/-- C3, as stated, fails: `/a` is a directory that is not empty (it holds `.git`), and
`gitInit` panics with the configuration read error, not with "is not empty", because the
configuration file in it does not parse. -/
theorem gitInit_nonempty_bad_config :
    readDirNames (configFS "[core".toList) "/a".toList = .ok [".git".toList] ∧
    (gitInit plainIni (configFS "[core".toList) "/a".toList).1
      = .error .configurationFileReadError :=
  ⟨rfl, rfl⟩

/-- C3 (amended). On a path that is a directory whose listing is not empty (it has an
entry, or it cannot be listed), `gitInit` panics and leaves the filesystem as it was.  When
the configuration file of the control directory exists and does not load, the panic is the
configuration read error of the opening in force mode; in every other case it is "is not
empty". -/
theorem gitInit_nonempty (ini : IniCodec) (fs : FS) (path : Str)
    (hdir : osStat fs path = .ok { isDir := true }) (h : readDirNames fs path ≠ .ok []) :
    (gitInit ini fs path).2 = fs ∧
    (((∃ info, osStat fs (configPathOf path) = .ok info) ∧
        iniLoad ini fs (configPathOf path) = none) →
      (gitInit ini fs path).1 = .error .configurationFileReadError) ∧
    (¬ ((∃ info, osStat fs (configPathOf path) = .ok info) ∧
        iniLoad ini fs (configPathOf path) = none) →
      (gitInit ini fs path).1 = .error (.isNotEmpty path)) := by
  obtain ⟨hbad, hgood, hnone⟩ := newGitRepository_force_result ini fs path
  have hempty : ∀ c, newGitRepository ini fs path true
      = (.ok { worktree := path, gitdir := join [path, dotGit], conf := c }, fs) →
      gitInit ini fs path = (.error (.isNotEmpty path), fs) := by
    intro c hopen
    have hnot : ∃ err, isDirEmpty fs path = (false, err) := by
      unfold isDirEmpty
      cases hr : readDirNames fs path with
      | error e => exact ⟨_, rfl⟩
      | ok names =>
        cases names with
        | nil => exact absurd hr h
        | cons n ns => exact ⟨_, rfl⟩
    obtain ⟨err, hnot⟩ := hnot
    unfold gitInit
    rw [hopen]
    simp [hdir, hnot]
  cases hs : osStat fs (configPathOf path) with
  | error e =>
    have hopen := hnone (fun info hi => by rw [hs] at hi; cases hi)
    rw [hempty _ hopen]
    exact ⟨rfl, fun hc => (by obtain ⟨⟨info, hi⟩, _⟩ := hc; cases hi), fun _ => rfl⟩
  | ok info =>
    cases hl : iniLoad ini fs (configPathOf path) with
    | none =>
      have hinit : gitInit ini fs path = (.error .configurationFileReadError, fs) := by
        unfold gitInit
        rw [hbad info hs hl]
      rw [hinit]
      exact ⟨rfl, fun _ => rfl, fun hc => absurd ⟨⟨info, rfl⟩, rfl⟩ hc⟩
    | some c =>
      rw [hempty _ (hgood info c hs hl)]
      exact ⟨rfl, fun hc => (by cases hc.2), fun _ => rfl⟩

/-- C3 (amended), at concrete inputs.  `gitInit` run a second time on `/a` finds the
control directory there, with a configuration file that loads, and panics with "is not
empty", the filesystem unchanged.  `gitInit` on `/a` whose configuration file is the text
`[core` panics with the configuration read error, the filesystem unchanged. -/
theorem gitInit_nonempty_witness :
    (osStat initialisedFS "/a".toList = .ok { isDir := true } ∧
     readDirNames initialisedFS "/a".toList = .ok [".git".toList] ∧
     (iniLoad plainIni initialisedFS (configPathOf "/a".toList)).isSome = true ∧
     (gitInit plainIni initialisedFS "/a".toList).2 = initialisedFS ∧
     (gitInit plainIni initialisedFS "/a".toList).1 = .error (.isNotEmpty "/a".toList)) ∧
    (osStat (configFS "[core".toList) "/a".toList = .ok { isDir := true } ∧
     readDirNames (configFS "[core".toList) "/a".toList = .ok [".git".toList] ∧
     osStat (configFS "[core".toList) (configPathOf "/a".toList) = .ok { isDir := false } ∧
     iniLoad plainIni (configFS "[core".toList) (configPathOf "/a".toList) = none ∧
     (gitInit plainIni (configFS "[core".toList) "/a".toList).2 = configFS "[core".toList ∧
     (gitInit plainIni (configFS "[core".toList) "/a".toList).1
       = .error .configurationFileReadError) :=
  have hr1 : readDirNames initialisedFS "/a".toList = .ok [".git".toList] := rfl
  have hr2 : readDirNames (configFS "[core".toList) "/a".toList = .ok [".git".toList] := rfl
  have h1 := gitInit_nonempty plainIni initialisedFS "/a".toList rfl
    (fun hc => by rw [hr1] at hc; cases hc)
  have h2 := gitInit_nonempty plainIni (configFS "[core".toList) "/a".toList rfl
    (fun hc => by rw [hr2] at hc; cases hc)
  have hsome : (iniLoad plainIni initialisedFS (configPathOf "/a".toList)).isSome = true := rfl
  ⟨⟨rfl, hr1, hsome, h1.1, h1.2.2 (fun hc => by rw [hc.2] at hsome; cases hsome)⟩,
   ⟨rfl, hr2, rfl, rfl, h2.1, h2.2.1 ⟨⟨_, rfl⟩, rfl⟩⟩⟩

/-- C4, on the code: with no control directory, the strict open panics on the nil
`FileInfo` of the failed `os.Stat`, not with "not a git repository". -/
theorem strict_open_without_gitdir :
    osStat emptyFS (join ["/a".toList, dotGit]) = .error .ENOENT ∧
    (newGitRepository plainIni emptyFS "/a".toList false).1 = .error .nilDereference :=
  ⟨rfl, rfl⟩

/-- C5, on the code: with a control directory that holds no `config`, the strict open
reaches the read of the format version with a nil configuration and panics there, not with
"configuration file missing". -/
theorem strict_open_without_config :
    osStat bareGitFS "/a/.git".toList = .ok { isDir := true } ∧
    osStat bareGitFS "/a/.git/config".toList = .error .ENOENT ∧
    (newGitRepository plainIni bareGitFS "/a".toList false).1 = .error .nilDereference :=
  ⟨rfl, rfl, rfl⟩

/-- C6, on the code: the configuration file parses and has format version 1 in section
`core`, and the strict open succeeds, because section `conf` has format version 0. -/
theorem strict_open_core_version_one :
    (iniLoad plainIni (configFS twoVersionsText) "/a/.git/config".toList).map
        (fun c => (sectionKey c "core".toList "repositoryformatversion".toList).1)
      = some "1".toList ∧
    (newGitRepository plainIni (configFS twoVersionsText) "/a".toList false).1.isOk = true :=
  ⟨rfl, rfl⟩

/-- C7, as stated, fails: with `/a/.git` a regular file, `/a/.git/objects` does not exist
and `obtainDir` with `mkdir` true returns it with no error, yet afterwards it still does
not exist (the error of `os.MkdirAll` is dropped). -/
theorem obtainDir_mkdir_under_file :
    osStat gitFileFS "/a/.git/objects".toList = .error .ENOTDIR ∧
    (obtainDir repoA gitFileFS true ["objects".toList]).1 = ("/a/.git/objects".toList, none) ∧
    osStat (obtainDir repoA gitFileFS true ["objects".toList]).2 "/a/.git/objects".toList
      = .error .ENOTDIR :=
  ⟨rfl, rfl, rfl⟩

/-- C7 (amended). `obtainDir` by cases on the resolved path `getPath repo paths`.  An
existing directory is returned with no error and no change of the filesystem.  An existing
object that is not a directory is an error (path conflict), with no change.  A path that
does not resolve, with `mkdir` false, is an error (path missing), with no change.  A path
that does not resolve, with `mkdir` true, is returned with no error whatever `os.MkdirAll`
does, and the filesystem afterwards is the one `os.MkdirAll` leaves; when `os.MkdirAll`
succeeds, the path and all its ancestors exist as directories afterwards, and no object
that existed is lost. -/
theorem obtainDir_cases (repo : gitRepository) (fs : FS) (mkdir : Bool) (paths : List Str) :
    (osStat fs (getPath repo paths) = .ok { isDir := true } →
      obtainDir repo fs mkdir paths = ((getPath repo paths, none), fs)) ∧
    (osStat fs (getPath repo paths) = .ok { isDir := false } →
      obtainDir repo fs mkdir paths
        = (([], some (.isNotADirectory (getPath repo paths))), fs)) ∧
    (∀ e, osStat fs (getPath repo paths) = .error e → mkdir = false →
      obtainDir repo fs mkdir paths = (([], some (.doesNotExist (getPath repo paths))), fs)) ∧
    (∀ e, osStat fs (getPath repo paths) = .error e → mkdir = true →
      obtainDir repo fs mkdir paths
        = ((getPath repo paths, none), (osMkdirAll fs (getPath repo paths)).1) ∧
      ((osMkdirAll fs (getPath repo paths)).2 = true →
        osStat (obtainDir repo fs mkdir paths).2 (getPath repo paths) = .ok { isDir := true } ∧
        dirsAlong (obtainDir repo fs mkdir paths).2 (getPath repo paths) = true ∧
        Extends fs.rootNode (obtainDir repo fs mkdir paths).2.rootNode)) := by
  refine ⟨fun h => ?_, fun h => ?_, fun e h hm => ?_, fun e h hm => ?_⟩
  · simp [obtainDir, h]
  · simp [obtainDir, h]
  · simp [obtainDir, h, hm]
  · subst hm
    have hob : obtainDir repo fs true paths
        = ((getPath repo paths, none), (osMkdirAll fs (getPath repo paths)).1) := by
      simp [obtainDir, h]
    refine ⟨hob, fun hok => ?_⟩
    rw [hob]
    obtain ⟨hdirs, hstat, hext⟩ := osMkdirAll_ok fs (getPath repo paths) hok
    exact ⟨hstat, hdirs, hext⟩

/-- C7 (amended), at a concrete input: on the empty filesystem `os.MkdirAll` of
`/a/.git/objects` succeeds, and `obtainDir` with `mkdir` true returns that path and leaves
it and its ancestors as directories. -/
theorem obtainDir_cases_witness :
    osStat emptyFS "/a/.git/objects".toList = .error .ENOENT ∧
    (osMkdirAll emptyFS "/a/.git/objects".toList).2 = true ∧
    (obtainDir repoA emptyFS true ["objects".toList]).1 = ("/a/.git/objects".toList, none) ∧
    osStat (obtainDir repoA emptyFS true ["objects".toList]).2 "/a/.git/objects".toList
      = .ok { isDir := true } ∧
    dirsAlong (obtainDir repoA emptyFS true ["objects".toList]).2 "/a/.git/objects".toList
      = true :=
  have h := (obtainDir_cases repoA emptyFS true ["objects".toList]).2.2.2 .ENOENT rfl rfl
  have h2 := h.2 rfl
  ⟨rfl, rfl, congrArg Prod.fst h.1, h2.1, h2.2.1⟩

/-- C8, as stated, fails: with the segment `/` first and the segment `..` second, the path
of both segments is `/a/.git` and joining `..` onto the path of the first is `/a`. -/
theorem getPath_append_rooted_segment :
    getPath repoA (["/".toList] ++ ["..".toList]) = "/a/.git".toList ∧
    join (getPath repoA ["/".toList] :: ["..".toList]) = "/a".toList ∧
    getPath repoA (["/".toList] ++ ["..".toList])
      ≠ join (getPath repoA ["/".toList] :: ["..".toList]) :=
  ⟨rfl, rfl, by decide⟩

/-- C8 (amended). For every handle and all segment sequences `s1` and `s2`, `getPath` of
`s1 ++ s2` is `Join` of `getPath` of `s1` with the segments of `s2` exactly when one of
these holds: `gitdir` is empty; the first non-empty segment of `s1 ++ s2` does not begin
with a separator; `gitdir` cleans to the root `/`; no `..` of `s2` climbs above the root
of the rooted path that the segments `s1` form.  And for every handle built by
`newGitRepository`, `getPath` with no segments is exactly its `gitdir`. -/
theorem getPath_append :
    (∀ (repo : gitRepository) (s1 s2 : List Str),
      getPath repo (s1 ++ s2) = join (getPath repo s1 :: s2) ↔
        (repo.gitdir = [] ∨ firstRelative (s1 ++ s2) = true ∨ clean repo.gitdir = [sep] ∨
          climbsAbove s1 s2 = false)) ∧
    (∀ (ini : IniCodec) (fs : FS) (path : Str) (force : Bool) (repo : gitRepository) (fs1 : FS),
      newGitRepository ini fs path force = (.ok repo, fs1) →
      getPath repo [] = repo.gitdir) := by
  refine ⟨fun repo s1 s2 => getPath_append_iff repo s1 s2, ?_⟩
  intro ini fs path force repo fs1 h
  obtain ⟨z, hz⟩ := join_dotGit_clean path
  exact getPath_nil_of_clean repo z ((newGitRepository_ok ini fs path force repo fs1 h).2.trans hz)

/-- C8 (amended), at concrete inputs: the segments `refs` and `heads` under `/a/.git`; the
rooted segment `/a`, as in the call of `gitInit`, followed by `..` and `b`, where the `..`
stays below the root of `/a`; and the handle that opening `/a` in force mode builds on the
empty filesystem. -/
theorem getPath_append_witness :
    getPath repoA (["refs".toList] ++ ["heads".toList])
      = join (getPath repoA ["refs".toList] :: ["heads".toList]) ∧
    getPath repoA (["/a".toList] ++ ["..".toList, "b".toList])
      = join (getPath repoA ["/a".toList] :: ["..".toList, "b".toList]) ∧
    getPath repoA (["/a".toList] ++ ["..".toList, "b".toList]) = "/a/.git/b".toList ∧
    getPath repoA [] = repoA.gitdir :=
  ⟨(getPath_append.1 repoA ["refs".toList] ["heads".toList]).mpr (Or.inr (Or.inl rfl)),
   (getPath_append.1 repoA ["/a".toList] ["..".toList, "b".toList]).mpr
     (Or.inr (Or.inr (Or.inr rfl))),
   rfl,
   getPath_append.2 plainIni emptyFS "/a".toList true repoA emptyFS rfl⟩

/-- C9, as stated, fails: with `/b/.git/config` a directory, opening `/b` in force mode
panics with the configuration read error. -/
theorem newGitRepository_force_config_dir :
    (newGitRepository plainIni configDirFS "/b".toList true).1
      = .error .configurationFileReadError :=
  rfl

/-- C9 (amended). Opening in force mode never changes the filesystem and makes none of
the checks of the control directory, of a missing configuration file or of the format
version; its result is settled by the `config` file of the control directory alone.  When
that file exists and does not load, the call panics with the configuration read error.
When it exists and loads, the call returns the handle with `worktree = path`,
`gitdir = Join(path, ".git")` and the loaded configuration.  When it does not exist, the
call returns the handle with `worktree = path`, `gitdir = Join(path, ".git")` and no
configuration. -/
theorem newGitRepository_force (ini : IniCodec) (fs : FS) (path : Str) :
    (newGitRepository ini fs path true).2 = fs ∧
    (∀ info, osStat fs (configPathOf path) = .ok info →
      iniLoad ini fs (configPathOf path) = none →
      (newGitRepository ini fs path true).1 = .error .configurationFileReadError) ∧
    (∀ info c, osStat fs (configPathOf path) = .ok info →
      iniLoad ini fs (configPathOf path) = some c →
      (newGitRepository ini fs path true).1
        = .ok { worktree := path, gitdir := join [path, dotGit], conf := some c }) ∧
    ((∀ info, osStat fs (configPathOf path) ≠ .ok info) →
      (newGitRepository ini fs path true).1
        = .ok { worktree := path, gitdir := join [path, dotGit], conf := none }) := by
  obtain ⟨hbad, hgood, hnone⟩ := newGitRepository_force_result ini fs path
  refine ⟨?_, fun info hs hl => by rw [hbad info hs hl],
    fun info c hs hl => by rw [hgood info c hs hl], fun hno => by rw [hnone hno]⟩
  cases hs : osStat fs (configPathOf path) with
  | error e => rw [hnone (fun info hi => by rw [hs] at hi; cases hi)]
  | ok info =>
    cases hl : iniLoad ini fs (configPathOf path) with
    | none => rw [hbad info hs hl]
    | some c => rw [hgood info c hs hl]

/-- C9 (amended), at concrete inputs: the configuration file `[core` exists and does not
load, and the opening panics; on the empty filesystem there is no configuration file, nor
a control directory, and the opening returns the handle of `/a` with no configuration. -/
theorem newGitRepository_force_witness :
    (osStat (configFS "[core".toList) (configPathOf "/a".toList) = .ok { isDir := false } ∧
     iniLoad plainIni (configFS "[core".toList) (configPathOf "/a".toList) = none ∧
     (newGitRepository plainIni (configFS "[core".toList) "/a".toList true).1
       = .error .configurationFileReadError) ∧
    (osStat emptyFS (configPathOf "/a".toList) = .error .ENOENT ∧
     osStat emptyFS (join ["/a".toList, dotGit]) = .error .ENOENT ∧
     (newGitRepository plainIni emptyFS "/a".toList true).1
       = .ok { worktree := "/a".toList, gitdir := join ["/a".toList, dotGit], conf := none }) :=
  ⟨⟨rfl, rfl,
    (newGitRepository_force plainIni (configFS "[core".toList) "/a".toList).2.1 _ rfl rfl⟩,
   ⟨rfl, rfl,
    (newGitRepository_force plainIni emptyFS "/a".toList).2.2.2
      (fun _ hi => Except.noConfusion hi)⟩⟩

/-- C10, on the code: after `gitInit` on the absolute path `/a`, which did not exist, the
control directory has a seventh entry, `a`: the call `obtainDir(repo, true, path)` creates
`/a/.git/a`. -/
theorem gitInit_control_dir_entries :
    osStat emptyFS "/a".toList = .error .ENOENT ∧
    readDirNames initialisedFS "/a/.git".toList
      = .ok ["a".toList, "branches".toList, "objects".toList, "refs".toList,
          "description".toList, "HEAD".toList, "config".toList] ∧
    osStat initialisedFS "/a/.git/a".toList = .ok { isDir := true } :=
  ⟨rfl, rfl, rfl⟩

end Gogit
